import Mathlib

/-!
Verification of the content-normalization and retrieval-chunking pipeline.

Text is modelled as `List Char` (one element per Unicode code point, matching
the indexing and length semantics of a Python `str`).  Each definition below
is a direct translation of one function of the repository; the module-level
namespaces mirror the source files:

* `Py`               — shared semantics of Python `str`/`re` primitives
* `RagOptimizer`     — rag_optimizer.py  (class RAGOptimizer)
* `SchoolRAG`        — optimize_existing_schools.py / linkedu_school_scraper.py
* `SubjectsScraper`  — linkedu_subjects_scraper.py

Approximations, stated once: the Unicode categories behind the regex classes
\w and \s and behind str.upper/str.lower are modelled on their ASCII parts
(plus the explicitly listed CJK ranges where the source regex lists them);
every theorem below is insensitive to the exact extent of these character
sets, and every concrete witness uses only ASCII or CJK characters on which
the model agrees exactly with CPython.
-/

set_option maxHeartbeats 1600000
set_option maxRecDepth 8000

namespace Py

/-- Characters matched by the regex class \s over a Python 3 str:
TAB..CR, FS..US, space, NEL, NBSP, and the Unicode space separators. -/
def pySpace (c : Char) : Bool :=
  let n := c.toNat
  decide ((9 ≤ n ∧ n ≤ 13) ∨ (28 ≤ n ∧ n ≤ 31) ∨ n = 32 ∨ n = 133 ∨ n = 160 ∨
    n = 0x1680 ∨ (0x2000 ≤ n ∧ n ≤ 0x200a) ∨ n = 0x2028 ∨ n = 0x2029 ∨
    n = 0x202f ∨ n = 0x205f ∨ n = 0x3000)

/-- Characters matched by the regex class \w, modelled on its ASCII part
(letters, digits, underscore).  CJK word characters relevant to the sources
are always listed separately by the regexes that need them. -/
def pyWord (c : Char) : Bool :=
  c.isAlphanum || c == '_'

/-- str.lstrip with no argument: drop leading whitespace. -/
def lstrip (s : List Char) : List Char := s.dropWhile pySpace

/-- str.rstrip with no argument: drop trailing whitespace. -/
def rstrip : List Char → List Char
  | [] => []
  | c :: rest =>
    let r := rstrip rest
    if r.isEmpty && pySpace c then [] else c :: r

/-- str.strip with no argument: drop leading and trailing whitespace. -/
def strip (s : List Char) : List Char := lstrip (rstrip s)

/-- re.sub of the pattern \s+ by a single space: every maximal whitespace
run is replaced by one space (all run characters but the last are dropped
and the last becomes a plain space, which is the same replacement). -/
def wsCollapse : List Char → List Char
  | [] => []
  | [c] => if pySpace c then [' '] else [c]
  | a :: b :: rest =>
    if pySpace a && pySpace b then wsCollapse (b :: rest)
    else (if pySpace a then ' ' else a) :: wsCollapse (b :: rest)

/-- Test whether the pattern list occurs at the very beginning of the text:
the semantics of str.startswith and of anchored literal regex matching. -/
def litAt : List Char → List Char → Bool
  | [], _ => true
  | _ :: _, [] => false
  | p :: ps, c :: cs => p == c && litAt ps cs

/-- Python substring containment, the binary operator in for two str values. -/
def hasSub (pat : List Char) : List Char → Bool
  | [] => pat.isEmpty
  | c :: rest => litAt pat (c :: rest) || hasSub pat rest

/-- str.upper modelled on its ASCII part. -/
def upperL (s : List Char) : List Char := s.map Char.toUpper

/-- str.lower modelled on its ASCII part. -/
def lowerL (s : List Char) : List Char := s.map Char.toLower

/-- Lexicographic strict comparison of two code-point sequences: the order
CPython uses to compare str values (and hence the order behind sorted). -/
def ltChars : List Char → List Char → Bool
  | [], [] => false
  | [], _ :: _ => true
  | _ :: _, [] => false
  | a :: as, b :: bs => a < b || (a == b && ltChars as bs)

/-- Non-strict variant of ltChars. -/
def leChars (a b : List Char) : Bool := a == b || ltChars a b

/-- sorted applied to a list of str values: a stable sort under the
code-point lexicographic order (stable insertion sort; CPython sorted is
also stable, and equal keys keep their relative order in both). -/
def pySorted (l : List (List Char)) : List (List Char) :=
  l.insertionSort (fun a b => leChars a b = true)

end Py

namespace RagOptimizer

open Py

/-- Characters kept by the second re.sub of RAGOptimizer._clean_text, i.e.
the complement of the class
[^\w\s一-鿿㐀-䶿 0-⩭f⩰0-⭳f⭴0-⮁f⮂0-⳪f豈-﫿㌀-㏿︰-﹏豈-﫿⾀0-⾡f，。！？；：""（）【】《》、].
Python \u escapes take exactly four hex digits, so each five-digit escape
such as  0-⩭f parses as the literal U+2000, the range 0-U+2A6D and
the literal f; the two double quotes contribute the ASCII double quote, and
the apostrophe pair in the source line closes and reopens the Python string
literal, contributing nothing to the class.  The ranges below are the exact
parse of the class as CPython sre_parse reads it. -/
def allowedChar (c : Char) : Bool :=
  let n := c.toNat
  pyWord c || pySpace c ||
  decide ((0x4e00 ≤ n ∧ n ≤ 0x9fff) ∨ (0x3400 ≤ n ∧ n ≤ 0x4dbf) ∨
    n = 0x2000 ∨ (0x30 ≤ n ∧ n ≤ 0x2a6d) ∨ n = 0x66 ∨
    n = 0x2a70 ∨ (0x30 ≤ n ∧ n ≤ 0x2b73) ∨ n = 0x2b74 ∨ (0x30 ≤ n ∧ n ≤ 0x2b81) ∨
    n = 0x2b82 ∨ (0x30 ≤ n ∧ n ≤ 0x2cea) ∨ (0xf900 ≤ n ∧ n ≤ 0xfaff) ∨
    (0x3300 ≤ n ∧ n ≤ 0x33ff) ∨ (0xfe30 ≤ n ∧ n ≤ 0xfe4f) ∨
    n = 0x2f80 ∨ (0x30 ≤ n ∧ n ≤ 0x2fa1) ∨
    n = 0xff0c ∨ n = 0x3002 ∨ n = 0xff01 ∨ n = 0xff1f ∨ n = 0xff1b ∨ n = 0xff1a ∨
    n = 0x22 ∨ n = 0xff08 ∨ n = 0xff09 ∨ n = 0x3010 ∨ n = 0x3011 ∨
    n = 0x300a ∨ n = 0x300b ∨ n = 0x3001)

/-- The six CJK sentence-final punctuation marks of the third re.sub in
RAGOptimizer._clean_text, the class [，。！？；：]. -/
def punct3 (c : Char) : Bool :=
  c == '，' || c == '。' || c == '！' || c == '？' || c == '；' || c == '：'

/-- Worker for punctSub.  Scans left to right; pend holds (reversed) the
whitespace characters read since the last non-whitespace output, and afterP
records whether the scanner sits directly after a replaced punctuation mark
(in which case pending whitespace belongs to the trailing \s* of that match
and is dropped). -/
def punctSubGo : Bool → List Char → List Char → List Char
  | afterP, pend, [] => if afterP then [] else pend.reverse
  | afterP, pend, c :: rest =>
    if punct3 c then '，' :: punctSubGo true [] rest
    else if pySpace c then punctSubGo afterP (c :: pend) rest
    else (if afterP then [] else pend.reverse) ++ c :: punctSubGo false [] rest

/-- re.sub of the pattern \s*[，。！？；：]\s* by 「，」: each punctuation mark,
together with the whitespace around it, becomes a single 「，」. -/
def punctSub (s : List Char) : List Char := punctSubGo false [] s

/-- RAGOptimizer._clean_text: whitespace collapse after stripping, removal of
characters outside the allowed class (each replaced by a space), punctuation
normalization, a second whitespace collapse, and a final strip.  Empty input
returns the empty string at once. -/
def clean_text (text : List Char) : List Char :=
  if text.isEmpty then []
  else
    let t1 := wsCollapse (strip text)
    let t2 := t1.map (fun c => if allowedChar c then c else ' ')
    let t3 := punctSub t2
    let t4 := wsCollapse t3
    strip t4

end RagOptimizer

namespace Py

/-- Pairwise scanner: cf must hold of every element and sf of every adjacent
pair.  Used to state shape invariants of cleaned text. -/
def chainOk (cf : Char → Bool) (sf : Char → Char → Bool) : List Char → Bool
  | [] => true
  | [c] => cf c
  | a :: b :: rest => cf a && sf a b && chainOk cf sf (b :: rest)

/-- The first character, if any, is not whitespace. -/
def headNotSpace : List Char → Bool
  | [] => true
  | c :: _ => !pySpace c

/-- The last character, if any, is not whitespace. -/
def lastNotSpace : List Char → Bool
  | [] => true
  | [c] => !pySpace c
  | _ :: b :: rest => lastNotSpace (b :: rest)

end Py

namespace RagOptimizer

open Py

/-- Every whitespace character is a plain space. -/
def cfW (c : Char) : Bool := !pySpace c || c == ' '

/-- No two adjacent whitespace characters. -/
def sfW (a b : Char) : Bool := !(pySpace a && pySpace b)

/-- Whitespace shape left behind by wsCollapse. -/
def wsOk (s : List Char) : Bool := chainOk cfW sfW s

/-- Every sentence-final punctuation mark is the canonical 「，」. -/
def cfP (c : Char) : Bool := !punct3 c || c == '，'

/-- No whitespace directly before or after a punctuation mark. -/
def sfP (a b : Char) : Bool := !(pySpace a && punct3 b) && !(punct3 a && pySpace b)

/-- Punctuation shape left behind by punctSub. -/
def punctOk (s : List Char) : Bool := chainOk cfP sfP s

/-- Every character belongs to the allowed class. -/
def allowedOk (s : List Char) : Bool := s.all allowedChar

end RagOptimizer

namespace Py

/-- Decimal digit representation of a natural number, as Python str(n). -/
def natRepr (n : Nat) : List Char := (Nat.repr n).data

/-- re.sub of the pattern \n+ by a single space: every maximal newline run
becomes one space. -/
def nlCollapse : List Char → List Char
  | [] => []
  | [c] => if c == '\n' then [' '] else [c]
  | a :: b :: rest =>
    if a == '\n' && b == '\n' then nlCollapse (b :: rest)
    else (if a == '\n' then ' ' else a) :: nlCollapse (b :: rest)

/-- Worker for splitOnNN. -/
def splitOnNNGo : List Char → List Char → List (List Char)
  | acc, [] => [acc.reverse]
  | acc, '\n' :: '\n' :: rest => acc.reverse :: splitOnNNGo [] rest
  | acc, c :: rest => splitOnNNGo (c :: acc) rest

/-- str.split with the separator of two newlines: pieces between the
non-overlapping occurrences, scanned left to right, empty pieces kept. -/
def splitOnNN (s : List Char) : List (List Char) := splitOnNNGo [] s

/-- Worker for splitSections with fuel: re.split of the pattern \n##\s+.  A
separator is a newline, two number signs and a non-empty whitespace run
(taken greedily); if the whitespace run after the number signs is empty the
scan advances one character, as the regex engine does.  Every step consumes
at least one character, so fuel equal to the text length is enough. -/
def splitSectionsF : Nat → List Char → List Char → List (List Char)
  | 0, acc, _ => [acc.reverse]
  | _ + 1, acc, [] => [acc.reverse]
  | fuel + 1, acc, '\n' :: '#' :: '#' :: rest =>
    if (rest.takeWhile pySpace).isEmpty then
      splitSectionsF fuel ('\n' :: acc) ('#' :: '#' :: rest)
    else
      acc.reverse :: splitSectionsF fuel [] (rest.dropWhile pySpace)
  | fuel + 1, acc, c :: rest => splitSectionsF fuel (c :: acc) rest

/-- re.split of the pattern \n##\s+ over the whole text. -/
def splitSections (s : List Char) : List (List Char) :=
  splitSectionsF s.length [] s

/-- Worker for splitRuns with fuel; every step consumes at least one
character, so fuel equal to the text length is enough. -/
def splitRunsF (p : Char → Bool) : Nat → List Char → List Char → List (List Char)
  | 0, acc, _ => [acc.reverse]
  | _ + 1, acc, [] => [acc.reverse]
  | fuel + 1, acc, c :: rest =>
    if p c then acc.reverse :: splitRunsF p fuel [] (rest.dropWhile p)
    else splitRunsF p fuel (c :: acc) rest

/-- re.split of a one-character-class-run pattern such as [．·,，\s]+: each
maximal run of class characters separates the pieces. -/
def splitRuns (p : Char → Bool) (s : List Char) : List (List Char) :=
  splitRunsF p s.length [] s

/-- Worker for runsBy with fuel; every step consumes at least one
character, so fuel equal to the text length is enough. -/
def runsByF (p : Char → Bool) : Nat → List Char → List (List Char)
  | 0, _ => []
  | _ + 1, [] => []
  | fuel + 1, c :: rest =>
    if p c then (c :: rest.takeWhile p) :: runsByF p fuel (rest.dropWhile p)
    else runsByF p fuel rest

/-- re.findall of a pattern matching maximal runs of a character class:
returns every maximal run, in text order.  Length thresholds such as {2,}
are applied by the caller via filter. -/
def runsBy (p : Char → Bool) (s : List Char) : List (List Char) :=
  runsByF p s.length s

/-- Worker for findLits with fuel.  Every step either consumes one character
or a whole non-empty literal, so fuel equal to the text length is enough;
the literal tables used below contain no empty literal. -/
def findLitsF (lits : List (List Char)) : Nat → List Char → List (List Char)
  | 0, _ => []
  | _ + 1, [] => []
  | fuel + 1, c :: rest =>
    match lits.find? (fun l => litAt l (c :: rest)) with
    | some l => l :: findLitsF lits fuel ((c :: rest).drop l.length)
    | none => findLitsF lits fuel rest

/-- re.findall of an alternation of literals (lit1|lit2|...): at every
position the alternatives are tried in order; on a match the scan continues
after the matched literal, otherwise it advances one character. -/
def findLits (lits : List (List Char)) (s : List Char) : List (List Char) :=
  findLitsF lits s.length s

end Py

namespace SchoolRAG

open Py

/-- SchoolRAGOptimizer._clean_text of optimize_existing_schools.py: newline
runs to a space, then whitespace runs to a space, then strip. -/
def clean_text (text : List Char) : List Char :=
  if text.isEmpty then []
  else strip (wsCollapse (nlCollapse text))

/-- The ordered country table of _extract_country_from_address (identical in
optimize_existing_schools.py and linkedu_school_scraper.py): scanned in
insertion order UK, US, CA, AU, CN. -/
def countries : List (List Char × List (List Char)) :=
  [("UK".data, ["UK".data, "United Kingdom".data, "England".data,
    "Scotland".data, "Wales".data, "Northern Ireland".data]),
   ("US".data, ["US".data, "USA".data, "United States".data, "America".data]),
   ("CA".data, ["Canada".data, "CA".data]),
   ("AU".data, ["Australia".data, "AU".data]),
   ("CN".data, ["China".data, "CN".data, "Hong Kong".data, "Macau".data])]

/-- True when some indicator of the table entry occurs, upper-cased, in the
upper-cased address. -/
def entry_matches (inds : List (List Char)) (addrU : List Char) : Bool :=
  inds.any fun ind => hasSub (upperL ind) addrU

/-- _extract_country_from_address: empty address gives the empty code; else
the code of the first table entry with an indicator occurring
case-insensitively in the address, or the empty code if none matches. -/
def extract_country_from_address (addr : List Char) : List Char :=
  if addr.isEmpty then []
  else
    match countries.findSome? (fun e =>
      if entry_matches e.2 (upperL addr) then some e.1 else none) with
    | some code => code
    | none => []

/-- The stopword set of _extract_keywords in both school files. -/
def keyword_stopwords : List (List Char) :=
  ["school".data, "university".data, "college".data, "campus".data,
   "student".data, "students".data, "education".data]

/-- Word characters of the regex class \w for the school keyword pattern
\b\w{4,}\b, modelled on ASCII letters, digits, underscore and the main CJK
ideograph block. -/
def wordChar (c : Char) : Bool :=
  c.isAlphanum || c == '_' || decide (0x4e00 ≤ c.toNat ∧ c.toNat ≤ 0x9fff)

/-- _extract_keywords of optimize_existing_schools.py up to the set: clean
the text, lower it, take every maximal word run of length at least 4
(the matches of \b\w{4,}\b) and drop stopwords.  The list keeps duplicates
and text order; the source then materializes set(keywords) in an
unspecified enumeration order and truncates, which unique_keywords models. -/
def keyword_bag (text : List Char) : List (List Char) :=
  if text.isEmpty then []
  else
    ((runsBy wordChar (lowerL (clean_text text))).filter
      (fun r => 4 ≤ r.length)).filter
      (fun w => !(keyword_stopwords.contains w))

/-- list(set(keywords))[:20] of _extract_keywords, given the enumeration
order m in which CPython happens to list the set: the first 20 entries of
that order.  Any m that is a permutation of keyword_bag text with duplicates
removed is a possible run of the source. -/
def unique_keywords (m : List (List Char)) : List (List Char) := m.take 20

/-- The education_keywords table shared by SchoolRAGOptimizer and
LinkeduSchoolScraper, in insertion order. -/
def education_keywords : List (List Char × List (List Char)) :=
  [("UK".data, ["united kingdom".data, "england".data, "london".data,
    "british".data, "scotland".data, "wales".data]),
   ("US".data, ["united states".data, "america".data, "california".data,
    "new york".data, "boston".data]),
   ("AU".data, ["australia".data, "sydney".data, "melbourne".data,
    "brisbane".data]),
   ("CA".data, ["canada".data, "toronto".data, "vancouver".data,
    "montreal".data]),
   ("CN".data, ["china".data, "hong kong".data, "macau".data,
    "beijing".data, "shanghai".data])]

/-- The school record fields read by _generate_search_variations. -/
structure School where
  name : List Char
  country : List Char
  popular_subjects : List (List Char)
deriving DecidableEq

/-- Dictionary membership and lookup in education_keywords. -/
def lookup_education (country : List Char) : Option (List (List Char)) :=
  (education_keywords.find? (fun e => e.1 == country)).map (fun e => e.2)

/-- _generate_search_variations (identical logic in both school files): the
bare name, the name with the country, the name with each of the first 3
popular subjects, the name with each of the first 3 country keywords, all
truncated to 10; nothing is deduplicated. -/
def generate_search_variations (school : School) : List (List Char) :=
  let v1 := if school.name.isEmpty then []
    else school.name ::
      (if school.country.isEmpty then []
       else [school.name ++ ' ' :: school.country])
  let v2 := (school.popular_subjects.take 3).filterMap fun subj =>
    if school.name.isEmpty then none
    else some (school.name ++ ' ' :: subj)
  let v3 :=
    if school.country.isEmpty then []
    else
      match lookup_education school.country with
      | some kws => (kws.take 3).filterMap fun k =>
          if school.name.isEmpty then none
          else some (school.name ++ ' ' :: k)
      | none => []
  (v1 ++ v2 ++ v3).take 10

end SchoolRAG

namespace SubjectsScraper

open Py

/-- clean_text of linkedu_subjects_scraper.py: whitespace runs to a space,
strip, then newline runs to a space (a no-op at that point). -/
def clean_text (text : List Char) : List Char :=
  if text.isEmpty then []
  else nlCollapse (strip (wsCollapse text))

/-- re.split of the pattern (?<=[.!?])\s+: a separator is a maximal
whitespace run whose preceding character is a sentence terminator.  The
accumulator holds the current piece reversed, so its head is the character
preceding the scan position. -/
def sentSplitF : Nat → List Char → List Char → List (List Char)
  | 0, acc, _ => [acc.reverse]
  | _ + 1, acc, [] => [acc.reverse]
  | fuel + 1, acc, c :: rest =>
    match acc with
    | p :: _ =>
      if pySpace c && (p == '.' || p == '!' || p == '?') then
        acc.reverse :: sentSplitF fuel [] (rest.dropWhile pySpace)
      else sentSplitF fuel (c :: acc) rest
    | [] => sentSplitF fuel (c :: acc) rest

/-- Sentence splitting of the main-content branch of optimize_for_rag;
every step consumes at least one character, so fuel equal to the text
length is enough. -/
def splitSentences (s : List Char) : List (List Char) :=
  sentSplitF s.length [] s

/-- english_name.lower().replace(' ', '_'), the chunk id stem. -/
def idName (name : List Char) : List Char :=
  (lowerL name).map fun c => if c == ' ' then '_' else c

/-- One content chunk dict of the main-content branch (the type field is
named ctype here because of the Lean keyword). -/
structure ContentChunk where
  chunk_id : List Char
  title : List Char
  ctype : List Char
  content : List Char
deriving DecidableEq

/-- The chunk record appended for the k-th emitted buffer. -/
def mkContentChunk (en : List Char) (k : Nat) (cc : List Char) : ContentChunk :=
  { chunk_id := idName en ++ "_content_".data ++ natRepr k
    title := en ++ " - Content Part ".data ++ natRepr k
    ctype := "content".data
    content := strip cc }

/-- One iteration of the sentence-packing loop of optimize_for_rag
(lines 306-322): state is (emitted chunks, current buffer, chunk count).
When the length check fires on a non-empty buffer the buffer is emitted and
the sentence starts a new buffer; otherwise the sentence is appended with a
joining space (or starts the empty buffer).  The length check compares
len(current_chunk) + len(sentence) against 1000 and does not count the
joining space. -/
def packStep (en : List Char) (st : List ContentChunk × List Char × Nat)
    (sentence : List Char) : List ContentChunk × List Char × Nat :=
  let chunks := st.1
  let current_chunk := st.2.1
  let chunk_count := st.2.2
  if decide (1000 < current_chunk.length + sentence.length) &&
      !current_chunk.isEmpty then
    (chunks ++ [mkContentChunk en (chunk_count + 1) current_chunk],
     sentence, chunk_count + 1)
  else
    (chunks,
     (if current_chunk.isEmpty then sentence
      else current_chunk ++ ' ' :: sentence),
     chunk_count)

/-- The packing loop over a sentence list, with the final non-empty buffer
emitted after the loop (lines 324-333). -/
def content_chunks (en : List Char) (sentences : List (List Char)) :
    List ContentChunk :=
  let st := sentences.foldl (packStep en) ([], [], 0)
  if st.2.1.isEmpty then st.1
  else st.1 ++ [mkContentChunk en (st.2.2 + 1) st.2.1]

/-- The main-content branch of optimize_for_rag: nothing when the content is
empty, else the packing loop over the sentence split of the cleaned text. -/
def optimize_content_chunks (en content : List Char) : List ContentChunk :=
  if content.isEmpty then []
  else content_chunks en (splitSentences (clean_text content))

end SubjectsScraper

namespace RagOptimizer

open Py

/-- The stopword set of RAGOptimizer.__init__ (a Python set literal; listed
here sorted and with the one duplicated entry removed, which leaves the
membership test unchanged). -/
def stopwords : List (List Char) :=
  ["一".data, "一個".data, "一般".data, "上".data, "不".data, "不可能".data,
   "不同".data, "主要".data, "也".data, "了".data, "人".data, "但是".data,
   "低的".data, "作用".data, "你".data, "使用".data, "允許".data, "具體".data,
   "出現".data, "利用".data, "到".data, "創造".data, "包括".data, "去".data,
   "取得".data, "可以".data, "可能".data, "和".data, "問題".data, "因為".data,
   "困難".data, "在".data, "地方".data, "基本".data, "增加".data, "壞的".data,
   "多的".data, "大的".data, "失敗".data, "好".data, "好的".data, "如果".data,
   "學習".data, "安排".data, "完成".data, "容易".data, "實現".data, "對於".data,
   "小的".data, "少的".data, "尤其".data, "就".data, "工作".data, "已經".data,
   "希望".data, "建立".data, "形成".data, "影響".data, "很".data, "必須".data,
   "情況".data, "想要".data, "應當".data, "應該".data, "成功".data, "我".data,
   "所以".data, "按照".data, "採用".data, "提高".data, "改變".data, "新的".data,
   "方法".data, "是".data, "時候".data, "時間".data, "會".data, "有".data,
   "根據".data, "正確".data, "比較".data, "決定".data, "沒有".data, "減少".data,
   "準備".data, "無法".data, "然後".data, "特別".data, "特殊".data, "獲得".data,
   "生活".data, "產生".data, "發展".data, "發現".data, "的".data, "相同".data,
   "看".data, "知道".data, "短的".data, "確定".data, "禁止".data, "簡單".data,
   "聯繫".data, "能夠".data, "自己".data, "舊的".data, "著".data, "複雜".data,
   "要".data, "覺得".data, "計劃".data, "詳細".data, "認為".data, "說".data,
   "這".data, "這個".data, "通過".data, "進行".data, "達到".data, "選擇".data,
   "還是".data, "那".data, "那個".data, "都".data, "重要".data, "錯誤".data,
   "長的".data, "開始".data, "關係".data, "關於".data, "除了".data, "雖然".data,
   "需要".data, "高的".data]

/-- One semantic chunk dict of _create_semantic_chunks. -/
structure Chunk where
  id : List Char
  heading : List Char
  content : List Char
  context : List Char
  length : Nat
deriving DecidableEq

/-- chunk_{i}_{j} for paragraph j of section i, chunk_{i} when j is 0. -/
def chunk_id_str (i j : Nat) : List Char :=
  if 0 < j then "chunk_".data ++ natRepr i ++ '_' :: natRepr j
  else "chunk_".data ++ natRepr i

/-- lines[0].strip() of a section: its heading line. -/
def section_heading (sec : List Char) : List Char :=
  match sec.splitOn '\n' with
  | [] => strip sec
  | l0 :: _ => strip l0

/-- The section body: the newline-join of the lines after the first when
there are at least two lines, else the stripped section itself. -/
def section_content (sec : List Char) : List Char :=
  match sec.splitOn '\n' with
  | [] => strip sec
  | [_] => strip sec
  | _ :: ls => strip (List.intercalate ['\n'] ls)

/-- The non-empty stripped paragraphs of a section body, split on blank
lines. -/
def section_paragraphs (sc : List Char) : List (List Char) :=
  (splitOnNN sc).filterMap fun p =>
    let q := strip p
    if q.isEmpty then none else some q

/-- The chunks contributed by section number i: nothing when the section is
blank or its body is shorter than 50; otherwise one chunk per stripped
paragraph of length at least 30, carrying the section heading and the
context label of title and heading. -/
def section_chunks (title : List Char) (i : Nat) (sec : List Char) :
    List Chunk :=
  if (strip sec).isEmpty then []
  else
    let heading := section_heading sec
    let sc := section_content sec
    if sc.length < 50 then []
    else
      ((section_paragraphs sc).enum).filterMap fun pj =>
        if pj.2.length < 30 then none
        else some
          { id := chunk_id_str i pj.1
            heading := heading
            content := pj.2
            context := if heading.isEmpty then title
              else title ++ " - ".data ++ heading
            length := pj.2.length }

/-- RAGOptimizer._create_semantic_chunks: split the content on the heading
separator and collect the chunks of each section. -/
def create_semantic_chunks (content title : List Char) : List Chunk :=
  ((splitSections content).enum).bind fun is => section_chunks title is.1 is.2

/-- One question/answer dict of _generate_qa_pairs. -/
structure QAPair where
  question : List Char
  answer : List Char
  context : List Char
deriving DecidableEq

/-- The local qa_patterns list built at the top of _generate_qa_pairs: the
two title-level pairs of the specification.  The source constructs this
list and never reads it again (a dead store), so it reaches no output. -/
def qa_patterns (title content : List Char) (chunks : List Chunk) :
    List (List Char × List Char) :=
  [("什麼是".data ++ title ++ "？".data,
    match chunks with
    | c :: _ => c.content
    | [] => content.take 200 ++ "...".data),
   ("關於".data ++ title ++ "的詳細資訊".data,
    if 300 < content.length then content.take 300 ++ "...".data else content)]

/-- RAGOptimizer._generate_qa_pairs: the returned list holds only the pairs
derived from heading-bearing chunks among the first five; the title-level
qa_patterns above never join it. -/
def generate_qa_pairs (title content : List Char) (chunks : List Chunk) :
    List QAPair :=
  (chunks.take 5).filterMap fun ch =>
    if ch.heading.isEmpty then none
    else some
      { question := ch.heading ++ "是什麼？".data
        answer := ch.content
        context := ch.context }

/-- ASCII decimal digits, the class \d of the keyword patterns. -/
def digitA (c : Char) : Bool := decide ('0' ≤ c ∧ c ≤ '9')

/-- ASCII upper-case letters, the class A-Z. -/
def upperA (c : Char) : Bool := decide ('A' ≤ c ∧ c ≤ 'Z')

/-- ASCII letters, the class A-Za-z. -/
def latinLetter (c : Char) : Bool :=
  decide (('A' ≤ c ∧ c ≤ 'Z') ∨ ('a' ≤ c ∧ c ≤ 'z'))

/-- The main CJK ideograph block 4E00..9FFF of the token pattern. -/
def cjkMain (c : Char) : Bool := decide (0x4e00 ≤ c.toNat ∧ c.toNat ≤ 0x9fff)

/-- re.findall of [A-Z]{2,}: maximal upper-case runs of length at least 2. -/
def acronymMatches (s : List Char) : List (List Char) :=
  (runsBy upperA s).filter fun r => 2 ≤ r.length

/-- Worker for yearMatches with fuel; every step consumes at least one
character, so fuel equal to the text length is enough. -/
def yearMatchesF : Nat → List Char → List (List Char)
  | 0, _ => []
  | _ + 1, [] => []
  | fuel + 1, c :: rest =>
    if digitA c then
      match rest.dropWhile digitA with
      | '年' :: r3 =>
        ((c :: rest.takeWhile digitA) ++ ['年']) :: yearMatchesF fuel r3
      | r2 => yearMatchesF fuel r2
    else yearMatchesF fuel rest

/-- re.findall of \d+年: a maximal digit run directly followed by the year
character; a digit run not followed by it contains no match start. -/
def yearMatches (s : List Char) : List (List Char) := yearMatchesF s.length s

/-- Worker for rankMatches with fuel; every step consumes at least one
character, so fuel equal to the text length is enough. -/
def rankMatchesF : Nat → List Char → List (List Char)
  | 0, _ => []
  | _ + 1, [] => []
  | fuel + 1, c :: rest =>
    if c == '第' && !(rest.takeWhile digitA).isEmpty then
      ('第' :: rest.takeWhile digitA) :: rankMatchesF fuel (rest.dropWhile digitA)
    else rankMatchesF fuel rest

/-- re.findall of 第\d+: the ranking character followed by a non-empty
maximal digit run. -/
def rankMatches (s : List Char) : List (List Char) := rankMatchesF s.length s

/-- The tail of a labeled-field match after its colon: the regex remainder
\s*[^\n]+ when ws is true and [^\n]+ when ws is false, returning the matched
tail and the unscanned remainder, or none when the remainder cannot match.
When everything after the colon is whitespace, the greedy \s* backtracks
just far enough for [^\n]+ to take the final non-newline character, so the
match extends to the last non-newline character of the text. -/
def lineTail (ws : Bool) (u : List Char) : Option (List Char × List Char) :=
  if ws then
    let r := u.dropWhile pySpace
    if r.isEmpty then
      let keep := (u.reverse.dropWhile (fun x => x == '\n')).reverse
      if keep.isEmpty then none else some (keep, u.drop keep.length)
    else
      some (u.takeWhile pySpace ++ r.takeWhile (fun x => !(x == '\n')),
        r.dropWhile (fun x => !(x == '\n')))
  else
    let b := u.takeWhile (fun x => !(x == '\n'))
    if b.isEmpty then none else some (b, u.drop b.length)

/-- Worker for labeledMatches with fuel: at each position try the two label
literals in alternation order; on a label hit, require (optionally
whitespace and) a half- or full-width colon and a line tail, emitting the
whole matched text; otherwise advance one character.  Every step consumes at
least one character, so fuel equal to the text length is enough. -/
def labeledGoF (lab1 lab2 : List Char) (ws : Bool) :
    Nat → List Char → List (List Char)
  | 0, _ => []
  | _ + 1, [] => []
  | fuel + 1, c :: rest =>
    let s := c :: rest
    let labMatch := if litAt lab1 s then some lab1
      else if litAt lab2 s then some lab2 else none
    match labMatch with
    | none => labeledGoF lab1 lab2 ws fuel rest
    | some lab =>
      let after := s.drop lab.length
      let w1 := if ws then after.takeWhile pySpace else []
      let a2 := if ws then after.dropWhile pySpace else after
      match a2 with
      | [] => labeledGoF lab1 lab2 ws fuel rest
      | k :: r2 =>
        if k == ':' || k == '：' then
          match lineTail ws r2 with
          | some (m, rem) =>
            (lab ++ w1 ++ k :: m) :: labeledGoF lab1 lab2 ws fuel rem
          | none => labeledGoF lab1 lab2 ws fuel rest
        else labeledGoF lab1 lab2 ws fuel rest

/-- re.findall of (?:lab1|lab2)\s*[:：]\s*[^\n]+ when ws is true and of
(?:lab1|lab2)[:：][^\n]+ when ws is false. -/
def labeledMatches (lab1 lab2 : List Char) (ws : Bool) (s : List Char) :
    List (List Char) :=
  labeledGoF lab1 lab2 ws s.length s

/-- The fee pattern (?:學費|費用)\s*[:：]\s*[^\n]+. -/
def feeMatches (s : List Char) : List (List Char) :=
  labeledMatches "學費".data "費用".data true s

/-- The requirements pattern (?:入學要求|申請條件)[:：][^\n]+. -/
def reqMatches (s : List Char) : List (List Char) :=
  labeledMatches "入學要求".data "申請條件".data false s

/-- The deadline pattern (?:截止日期|申請期限)[:：][^\n]+. -/
def deadlineMatches (s : List Char) : List (List Char) :=
  labeledMatches "截止日期".data "申請期限".data false s

/-- The pattern channel of _extract_keywords: all matches of the six
important_patterns, in the order the source adds them to the set. -/
def pattern_keyword_matches (text : List Char) : List (List Char) :=
  acronymMatches text ++ yearMatches text ++ rankMatches text ++
  feeMatches text ++ reqMatches text ++ deadlineMatches text

/-- re.findall of [一-鿿]{2,}|[A-Za-z]{3,}: a single scan emitting
maximal CJK runs of length at least 2 and maximal Latin runs of length at
least 3, interleaved in text order. -/
def freqTokensF : Nat → List Char → List (List Char)
  | 0, _ => []
  | _ + 1, [] => []
  | fuel + 1, c :: rest =>
    if cjkMain c then
      let run := c :: rest.takeWhile cjkMain
      if 2 ≤ run.length then run :: freqTokensF fuel (rest.dropWhile cjkMain)
      else freqTokensF fuel (rest.dropWhile cjkMain)
    else if latinLetter c then
      let run := c :: rest.takeWhile latinLetter
      if 3 ≤ run.length then run :: freqTokensF fuel (rest.dropWhile latinLetter)
      else freqTokensF fuel (rest.dropWhile latinLetter)
    else freqTokensF fuel rest

/-- Single scan with fuel equal to the text length; every step consumes at
least one character. -/
def freqTokens (s : List Char) : List (List Char) := freqTokensF s.length s

/-- word_freq[word] = word_freq.get(word, 0) + 1 over an insertion-ordered
association list, the Python 3.7 dict behavior. -/
def bumpWord : List (List Char × Nat) → List Char → List (List Char × Nat)
  | [], w => [(w, 1)]
  | (x, n) :: rest, w =>
    if x == w then (x, n + 1) :: rest else (x, n) :: bumpWord rest w

/-- The token-frequency table of _extract_keywords, in first-occurrence
order, counting only tokens outside the stopword set and longer than one
character. -/
def word_freq (text : List Char) : List (List Char × Nat) :=
  (freqTokens text).foldl
    (fun acc w =>
      if !(stopwords.contains w) && 1 < w.length then bumpWord acc w else acc)
    []

/-- sorted(word_freq.items(), key=freq, reverse=True)[:20] then the tokens
with frequency above 2: CPython sorted is stable, and so is mergeSort with a
non-strict descending comparison. -/
def top_freq_keywords (text : List Char) : List (List Char) :=
  (((word_freq text).insertionSort (fun a b => b.2 ≤ a.2)).take 20).filterMap
    fun p => if 2 < p.2 then some p.1 else none

/-- The insertion stream of the keywords set of _extract_keywords: every
pattern match stripped, then the retained high-frequency tokens. -/
def keyword_inserts (text : List Char) : List (List Char) :=
  (pattern_keyword_matches text).map strip ++ top_freq_keywords text

/-- RAGOptimizer._extract_keywords: sorted(list(keywords)), canonically the
sorted deduplication of the insertion stream. -/
def extract_keywords (text : List Char) : List (List Char) :=
  pySorted (keyword_inserts text).dedup

/-- The delimiter class [．·,，\s] of the category split. -/
def catDelim (c : Char) : Bool :=
  c == '．' || c == '·' || c == ',' || c == '，' || pySpace c

/-- The categories contribution of _extract_comprehensive_topics: split on
delimiter runs, keep non-empty stripped tokens. -/
def category_tokens (cats : List Char) : List (List Char) :=
  if cats.isEmpty then []
  else (splitRuns catDelim cats).filterMap fun t =>
    let u := strip t
    if u.isEmpty then none else some u

/-- The education_patterns literal alternations of
_extract_comprehensive_topics, in source order. -/
def education_patterns : List (List (List Char)) :=
  [["大學".data, "學院".data, "學校".data],
   ["學科".data, "專業".data, "課程".data],
   ["入學".data, "申請".data, "錄取".data],
   ["學費".data, "獎學金".data, "資助".data],
   ["海外".data, "留學".data, "遊學".data],
   ["英國".data, "美國".data, "加拿大".data, "澳洲".data, "新西蘭".data],
   ["IELTS".data, "TOEFL".data, "SAT".data, "A-Level".data, "IB".data],
   ["碩士".data, "學士".data, "博士".data],
   ["升學".data, "轉校".data, "銜接".data],
   ["簽證".data, "移民".data]]

/-- The raw article fields read by the optimizer; headings holds the text
field of each heading dict. -/
structure Article where
  title : List Char
  content : List Char
  excerpt : List Char
  source_url : List Char
  categories : List Char
  headings : List (List Char)
deriving DecidableEq

/-- The candidate stream of _extract_comprehensive_topics: category tokens,
then every pattern match over the lowered title and content. -/
def topic_candidates (a : Article) : List (List Char) :=
  category_tokens a.categories ++
  education_patterns.bind fun lits =>
    findLits lits (lowerL (a.title ++ ' ' :: a.content))

/-- RAGOptimizer._extract_comprehensive_topics: strip each candidate, keep
those longer than one character and outside the stopword set, and return
the sorted deduplication. -/
def extract_comprehensive_topics (a : Article) : List (List Char) :=
  pySorted ((topic_candidates a).filterMap fun t =>
    let u := strip t
    if u.isEmpty || u.length ≤ 1 || stopwords.contains u then none
    else some u).dedup

/-- The synonym table of _create_searchable_content, in insertion order. -/
def variations_table : List (List Char × List Char) :=
  [("大學".data, "大學 學院 高等教育 university college".data),
   ("申請".data, "申請 報名 入學 application apply".data),
   ("學費".data, "學費 費用 tuition fee cost".data),
   ("獎學金".data, "獎學金 資助 助學金 scholarship grant".data),
   ("留學".data, "留學 海外升學 overseas study abroad".data),
   ("簽證".data, "簽證 visa 入境許可".data),
   ("英國".data, "英國 UK 英倫 Britain United Kingdom".data),
   ("美國".data, "美國 USA 美利堅 America United States".data)]

/-- RAGOptimizer._create_searchable_content: the space-join of title,
excerpt and content, then for each table entry whose term occurs in the
accumulated text the expansion is appended, and the result is cleaned. -/
def create_searchable_content (title content excerpt : List Char) :
    List Char :=
  clean_text (variations_table.foldl
    (fun acc te => if hasSub te.1 acc then acc ++ ' ' :: te.2 else acc)
    (title ++ ' ' :: excerpt ++ ' ' :: content))

/-- RAGOptimizer._create_summary: the first stripped paragraph longer than
50 that does not start with a heading marker, truncated at 200 with an
ellipsis, else the truncated content. -/
def create_summary (content : List Char) : List Char :=
  let paragraphs := (splitOnNN content).filterMap fun p =>
    let q := strip p
    if q.isEmpty then none else some q
  match paragraphs.find? (fun p => 50 < p.length && !litAt "##".data p) with
  | some p => if 200 < p.length then p.take 200 ++ "...".data else p
  | none =>
    if 200 < content.length then content.take 200 ++ "...".data else content

/-- RAGOptimizer._extract_clean_headings over the text fields: clean each
heading and keep the non-empty ones longer than two characters. -/
def extract_clean_headings (headings : List (List Char)) : List (List Char) :=
  headings.filterMap fun h =>
    let t := clean_text h
    if !t.isEmpty && 2 < t.length then some t else none

/-- One section dict of _identify_sections. -/
structure ArticleSection where
  title : List Char
  content : List Char
deriving DecidableEq

/-- RAGOptimizer._identify_sections: per non-blank section, the stripped
first line as title and the body truncated at 200 with an ellipsis, kept
when the body is longer than 50. -/
def identify_sections (content : List Char) : List ArticleSection :=
  ((splitSections content).enum).filterMap fun ip =>
    if (strip ip.2).isEmpty then none
    else
      let stitle :=
        match ip.2.splitOn '\n' with
        | [] => "Section ".data ++ natRepr (ip.1 + 1)
        | l0 :: _ => strip l0
      let sc := section_content ip.2
      if !sc.isEmpty && 50 < sc.length then
        some { title := stitle
               content := if 200 < sc.length then sc.take 200 ++ "...".data
                 else sc }
      else none

/-- The assembled document of _optimize_single_article; the two timestamp
fields of the metadata dict are process-time values outside the data model
(the determinism property of the specification excludes them). -/
structure Doc where
  id : List Char
  title : List Char
  summary : List Char
  full_content : List Char
  source_url : List Char
  topics : List (List Char)
  keywords : List (List Char)
  semantic_chunks : List Chunk
  searchable_content : List Char
  qa_pairs : List QAPair
  structure_headings : List (List Char)
  structure_sections : List ArticleSection
deriving DecidableEq

/-- f-string {index:04d}: zero-padded to width 4. -/
def pad4 (n : Nat) : List Char :=
  let s := natRepr n
  if s.length < 4 then List.replicate (4 - s.length) '0' ++ s else s

/-- RAGOptimizer._optimize_single_article: clean the three text fields,
return nothing when the cleaned title or content is empty, else the
assembled document. -/
def optimize_single_article (a : Article) (index : Nat) : Option Doc :=
  let title := clean_text a.title
  let content := clean_text a.content
  let excerpt := clean_text a.excerpt
  if title.isEmpty || content.isEmpty then none
  else
    let chunks := create_semantic_chunks content title
    some
      { id := "linkedu_".data ++ pad4 index
        title := title
        summary := if excerpt.isEmpty then create_summary content else excerpt
        full_content := content
        source_url := a.source_url
        topics := extract_comprehensive_topics a
        keywords := extract_keywords (title ++ ' ' :: excerpt ++ ' ' :: content)
        semantic_chunks := chunks
        searchable_content := create_searchable_content title content excerpt
        qa_pairs := generate_qa_pairs title content chunks
        structure_headings := extract_clean_headings a.headings
        structure_sections := identify_sections content }

/-- The batch loop of optimize_articles_for_rag: article i is optimized with
index i+1; a skipped article contributes nothing. -/
def optimize_articles_go : Nat → List Article → List Doc
  | _, [] => []
  | i, a :: rest =>
    match optimize_single_article a (i + 1) with
    | some d => d :: optimize_articles_go (i + 1) rest
    | none => optimize_articles_go (i + 1) rest

/-- RAGOptimizer.optimize_articles_for_rag, reduced to its document list and
its error-log entries.  The except branch of the source fires only when
_optimize_single_article raises; the total model never raises, so the log
list is always empty — in particular a record skipped for an empty title or
body leaves no log entry. -/
def optimize_articles_for_rag (articles : List Article) :
    List Doc × List (List Char) :=
  (optimize_articles_go 0 articles, [])

end RagOptimizer

-- ===================== THEOREMS =====================

namespace Py

theorem chainOk_head {cf sf} {a : Char} {s : List Char}
    (h : chainOk cf sf (a :: s) = true) : cf a = true := by
  cases s with
  | nil => exact h
  | cons b rest => simp only [chainOk, Bool.and_eq_true] at h; exact h.1.1

theorem chainOk_tail {cf sf} {a : Char} {s : List Char}
    (h : chainOk cf sf (a :: s) = true) : chainOk cf sf s = true := by
  cases s with
  | nil => rfl
  | cons b rest => simp only [chainOk, Bool.and_eq_true] at h; exact h.2

theorem chainOk_pair {cf sf} {a b : Char} {s : List Char}
    (h : chainOk cf sf (a :: b :: s) = true) : sf a b = true := by
  simp only [chainOk, Bool.and_eq_true] at h; exact h.1.2

theorem chainOk_cons {cf sf} {c : Char} {s : List Char}
    (hc : cf c = true) (hs : ∀ d, s.head? = some d → sf c d = true)
    (h : chainOk cf sf s = true) : chainOk cf sf (c :: s) = true := by
  cases s with
  | nil => exact hc
  | cons d rest =>
    simp only [chainOk, Bool.and_eq_true]
    exact ⟨⟨hc, hs d rfl⟩, h⟩

theorem chainOk_dropWhile {cf sf} (p : Char → Bool) :
    ∀ {s : List Char}, chainOk cf sf s = true →
      chainOk cf sf (s.dropWhile p) = true
  | [], _ => rfl
  | c :: rest, h => by
    by_cases hp : p c
    · rw [List.dropWhile_cons_of_pos hp]
      exact chainOk_dropWhile p (chainOk_tail h)
    · rw [List.dropWhile_cons_of_neg hp]
      exact h

theorem rstrip_cons_cases (c : Char) (rest : List Char) :
    rstrip (c :: rest) = [] ∨ rstrip (c :: rest) = c :: rstrip rest := by
  rw [rstrip]
  split
  · exact Or.inl rfl
  · exact Or.inr rfl

theorem rstrip_head? : ∀ {s : List Char}, rstrip s ≠ [] →
    (rstrip s).head? = s.head?
  | [], h => absurd rfl h
  | c :: rest, h => by
    rcases rstrip_cons_cases c rest with heq | heq
    · exact absurd heq h
    · rw [heq]; rfl

theorem chainOk_rstrip {cf sf} :
    ∀ {s : List Char}, chainOk cf sf s = true → chainOk cf sf (rstrip s) = true
  | [], _ => rfl
  | c :: rest, h => by
    rcases rstrip_cons_cases c rest with heq | heq
    · rw [heq]; rfl
    · rw [heq]
      refine chainOk_cons (chainOk_head h) ?_ (chainOk_rstrip (chainOk_tail h))
      intro d hd
      by_cases hr : rstrip rest = []
      · rw [hr] at hd; exact absurd hd (by simp)
      · rw [rstrip_head? hr] at hd
        cases rest with
        | nil => exact absurd hd (by simp)
        | cons e r2 =>
          simp only [List.head?_cons, Option.some.injEq] at hd
          subst hd
          exact chainOk_pair h

theorem lstrip_eq_self {s : List Char} (h : headNotSpace s = true) :
    lstrip s = s := by
  cases s with
  | nil => rfl
  | cons c rest =>
    simp only [headNotSpace, Bool.not_eq_true'] at h
    simp [lstrip, List.dropWhile_cons, h]

theorem rstrip_eq_self : ∀ {s : List Char}, lastNotSpace s = true →
    rstrip s = s
  | [], _ => rfl
  | [c], h => by
    simp only [lastNotSpace, Bool.not_eq_true'] at h
    simp [rstrip, h]
  | c :: d :: rest, h => by
    have htail : lastNotSpace (d :: rest) = true := h
    have ih := rstrip_eq_self htail
    rw [rstrip, ih]
    simp

theorem strip_eq_self {s : List Char} (h1 : headNotSpace s = true)
    (h2 : lastNotSpace s = true) : strip s = s := by
  rw [strip, rstrip_eq_self h2, lstrip_eq_self h1]

theorem headNotSpace_lstrip : ∀ (s : List Char), headNotSpace (lstrip s) = true
  | [] => rfl
  | c :: rest => by
    by_cases hp : pySpace c
    · rw [lstrip, List.dropWhile_cons_of_pos hp]
      exact headNotSpace_lstrip rest
    · rw [lstrip, List.dropWhile_cons_of_neg hp]
      simp [headNotSpace, hp]

theorem lastNotSpace_cons_of {c : Char} {s : List Char}
    (h : lastNotSpace s = true) (hc : pySpace c = false) :
    lastNotSpace (c :: s) = true := by
  cases s with
  | nil => simp [lastNotSpace, hc]
  | cons d rest => exact h

theorem lastNotSpace_rstrip : ∀ (s : List Char), lastNotSpace (rstrip s) = true
  | [] => rfl
  | c :: rest => by
    rw [rstrip]
    split
    · rfl
    · rename_i hcond
      by_cases hr : (rstrip rest).isEmpty
      · have hc : pySpace c = false := by
          by_contra hc
          simp only [Bool.not_eq_false] at hc
          exact hcond (by simp [hr, hc])
        have : rstrip rest = [] := by
          cases h : rstrip rest with
          | nil => rfl
          | cons x xs => rw [h] at hr; simp [List.isEmpty] at hr
        rw [this]
        simp [lastNotSpace, hc]
      · have : rstrip rest ≠ [] := by
          cases h : rstrip rest with
          | nil => rw [h] at hr; simp [List.isEmpty] at hr
          | cons x xs => simp
        cases h : rstrip rest with
        | nil => exact absurd h this
        | cons x xs =>
          have := lastNotSpace_rstrip rest
          rw [h] at this
          exact this

theorem lastNotSpace_lstrip : ∀ {s : List Char}, lastNotSpace s = true →
    lastNotSpace (lstrip s) = true
  | [], _ => rfl
  | c :: rest, h => by
    by_cases hp : pySpace c
    · rw [lstrip, List.dropWhile_cons_of_pos hp]
      cases rest with
      | nil => rfl
      | cons d r2 => exact lastNotSpace_lstrip h
    · rw [lstrip, List.dropWhile_cons_of_neg hp]
      exact h

theorem headNotSpace_strip (s : List Char) : headNotSpace (strip s) = true :=
  headNotSpace_lstrip _

theorem lastNotSpace_strip (s : List Char) : lastNotSpace (strip s) = true :=
  lastNotSpace_lstrip (lastNotSpace_rstrip s)

end Py

namespace RagOptimizer

open Py

theorem wsCollapse_head : ∀ (b : Char) (rest : List Char),
    (wsCollapse (b :: rest)).head? = some (if pySpace b then ' ' else b)
  | b, [] => by
    by_cases hb : pySpace b <;> simp [wsCollapse, hb]
  | b, d :: r2 => by
    by_cases hb : pySpace b
    · by_cases hd : pySpace d
      · have ih := wsCollapse_head d r2
        simp only [wsCollapse, hb, hd, Bool.and_self, if_pos] at ih ⊢
        simpa [hd] using ih
      · simp [wsCollapse, hb, hd]
    · simp [wsCollapse, hb]

theorem wsOk_wsCollapse : ∀ (s : List Char), wsOk (wsCollapse s) = true
  | [] => rfl
  | [c] => by
    by_cases hc : pySpace c
    · simp only [wsCollapse, if_pos hc]
      decide
    · simp [wsCollapse, wsOk, chainOk, cfW, hc]
  | a :: b :: rest => by
    have ih := wsOk_wsCollapse (b :: rest)
    by_cases ha : pySpace a
    · by_cases hb : pySpace b
      · simpa [wsCollapse, ha, hb] using ih
      · rw [wsCollapse, if_neg (by simp [ha, hb]), if_pos ha]
        refine chainOk_cons (by decide) ?_ ih
        intro d hd
        rw [wsCollapse_head b rest] at hd
        have hd2 : d = if pySpace b then ' ' else b := (Option.some.inj hd).symm
        subst hd2
        simp [sfW, hb]
    · rw [wsCollapse, if_neg (by simp [ha]), if_neg ha]
      refine chainOk_cons (by simp [cfW, ha]) ?_ ih
      intro d hd
      rw [wsCollapse_head b rest] at hd
      simp [sfW, ha]

theorem wsCollapse_eq_self : ∀ {s : List Char}, wsOk s = true → wsCollapse s = s
  | [], _ => rfl
  | [c], h => by
    have hc : cfW c = true := chainOk_head h
    by_cases hp : pySpace c
    · have : c = ' ' := by simpa [cfW, hp] using hc
      subst this
      simp [wsCollapse]
    · simp [wsCollapse, hp]
  | a :: b :: rest, h => by
    have hab : sfW a b = true := chainOk_pair h
    have hnot : ¬(pySpace a = true ∧ pySpace b = true) := by
      intro ⟨h1, h2⟩; simp [sfW, h1, h2] at hab
    have ih := wsCollapse_eq_self (chainOk_tail h)
    rw [wsCollapse, if_neg (by simpa using hnot), ih]
    by_cases hp : pySpace a
    · have : a = ' ' := by simpa [cfW, hp] using chainOk_head h
      subst this
      simp
    · simp [hp]

theorem wsCollapse_mem : ∀ {s : List Char} {c : Char}, c ∈ wsCollapse s →
    c ∈ s ∨ c = ' '
  | [], _, h => by simp [wsCollapse] at h
  | [b], c, h => by
    by_cases hb : pySpace b <;> simp [wsCollapse, hb] at h <;> simp [h]
  | a :: b :: rest, c, h => by
    by_cases hab : pySpace a && pySpace b
    · rw [wsCollapse, if_pos hab] at h
      rcases wsCollapse_mem h with hm | hm
      · exact Or.inl (List.mem_cons_of_mem a hm)
      · exact Or.inr hm
    · rw [wsCollapse, if_neg hab] at h
      rcases List.mem_cons.1 h with hm | hm
      · by_cases ha : pySpace a
        · rw [hm]; simp [ha]
        · rw [hm]; simp [ha]
      · rcases wsCollapse_mem hm with h2 | h2
        · exact Or.inl (List.mem_cons_of_mem a h2)
        · exact Or.inr h2

theorem punctOk_wsCollapse : ∀ {s : List Char}, punctOk s = true →
    punctOk (wsCollapse s) = true
  | [], _ => rfl
  | [c], h => by
    by_cases hp : pySpace c
    · simp [wsCollapse, hp, punctOk, chainOk]; decide
    · simpa [wsCollapse, hp] using h
  | a :: b :: rest, h => by
    have ih := punctOk_wsCollapse (chainOk_tail h)
    by_cases ha : pySpace a
    · by_cases hb : pySpace b
      · rw [wsCollapse, if_pos (by simp [ha, hb])]
        exact ih
      · rw [wsCollapse, if_neg (by simp [ha, hb]), if_pos ha]
        refine chainOk_cons (by decide) ?_ ih
        intro d hd
        rw [wsCollapse_head b rest] at hd
        have hd2 : d = if pySpace b then ' ' else b := (Option.some.inj hd).symm
        rw [if_neg (by simp [hb])] at hd2
        have hpair : sfP a b = true := chainOk_pair h
        have hnp : punct3 b = false := by
          by_contra hc
          simp only [Bool.not_eq_false] at hc
          simp [sfP, ha, hc] at hpair
        rw [hd2]
        simp [sfP, hnp, hb]
    · rw [wsCollapse, if_neg (by simp [ha]), if_neg ha]
      refine chainOk_cons (chainOk_head h) ?_ ih
      intro d hd
      rw [wsCollapse_head b rest] at hd
      have hpair : sfP a b = true := chainOk_pair h
      have hd2 : d = if pySpace b then ' ' else b := (Option.some.inj hd).symm
      by_cases hb : pySpace b
      · rw [if_pos hb] at hd2
        have hnp : punct3 a = false := by
          by_contra hc
          simp only [Bool.not_eq_false] at hc
          simp [sfP, hb, hc] at hpair
        rw [hd2]
        simp [sfP, hnp, ha]
      · rw [if_neg hb] at hd2
        rw [hd2]
        exact hpair

theorem allowedOk_wsCollapse {s : List Char} (h : allowedOk s = true) :
    allowedOk (wsCollapse s) = true := by
  rw [allowedOk, List.all_eq_true]
  intro c hc
  rcases wsCollapse_mem hc with hm | hm
  · exact (List.all_eq_true.1 h) c hm
  · rw [hm]; decide

end RagOptimizer

namespace RagOptimizer

open Py

theorem space_not_punct3 {c : Char} (h : pySpace c = true) : punct3 c = false := by
  by_contra hc
  simp only [Bool.not_eq_false] at hc
  simp only [punct3, Bool.or_eq_true, beq_iff_eq] at hc
  rcases hc with ((((rfl | rfl) | rfl) | rfl) | rfl) | rfl <;> exact absurd h (by decide)

theorem go_true_head_not_space :
    ∀ (s : List Char) (pend : List Char) {h : Char},
      (punctSubGo true pend s).head? = some h → pySpace h = false
  | [], pend, h, hh => by simp [punctSubGo] at hh
  | c :: rest, pend, h, hh => by
    by_cases hc : punct3 c
    · rw [punctSubGo, if_pos hc] at hh
      simp only [List.head?_cons, Option.some.injEq] at hh
      rw [← hh]
      decide
    · by_cases hs : pySpace c
      · rw [punctSubGo, if_neg hc, if_pos hs] at hh
        exact go_true_head_not_space rest (c :: pend) hh
      · rw [punctSubGo, if_neg hc, if_neg hs] at hh
        simp only [if_pos, List.nil_append, List.head?_cons,
          Option.some.injEq] at hh
        rw [← hh]
        simpa using hs

theorem allWs_punctOk : ∀ {l : List Char}, (∀ c ∈ l, pySpace c = true) →
    punctOk l = true
  | [], _ => rfl
  | c :: rest, h => by
    refine chainOk_cons ?_ ?_ (allWs_punctOk fun d hd => h d (List.mem_cons_of_mem c hd))
    · have := h c (List.mem_cons_self _ _)
      simp [cfP, space_not_punct3 this]
    · intro d hd
      have hdm : d ∈ rest := by
        cases rest with
        | nil => simp at hd
        | cons e r2 =>
          simp only [List.head?_cons, Option.some.injEq] at hd
          rw [hd]; exact (List.mem_cons_self _ _)
      have hdw := h d (List.mem_cons_of_mem c hdm)
      have hcw := h c (List.mem_cons_self _ _)
      simp [sfP, space_not_punct3 hdw, space_not_punct3 hcw]

theorem punctOk_wsrun_cons : ∀ {A : List Char} {c : Char} {T : List Char},
    (∀ x ∈ A, pySpace x = true) → punct3 c = false →
    punctOk (c :: T) = true → punctOk (A ++ c :: T) = true
  | [], c, T, _, _, h => h
  | x :: A2, c, T, hA, hc, h => by
    refine chainOk_cons ?_ ?_ (punctOk_wsrun_cons (fun y hy => hA y (List.mem_cons_of_mem x hy)) hc h)
    · have := hA x (List.mem_cons_self _ _)
      simp [cfP, space_not_punct3 this]
    · intro d hd
      have hxw := hA x (List.mem_cons_self _ _)
      have hdp : punct3 d = false := by
        cases A2 with
        | nil =>
          have hdc : c = d := by simpa using hd
          rw [← hdc]; exact hc
        | cons y A3 =>
          have hdy : y = d := by simpa using hd
          rw [← hdy]
          exact space_not_punct3 (hA y (by simp))
      simp [sfP, hdp, space_not_punct3 hxw]

theorem punctOk_punctSubGo :
    ∀ (s : List Char) (pend : List Char) (afterP : Bool),
      (∀ c ∈ pend, pySpace c = true) →
      punctOk (punctSubGo afterP pend s) = true
  | [], pend, afterP, hpend => by
    rw [punctSubGo]
    by_cases ha : afterP
    · rw [if_pos ha]; rfl
    · rw [if_neg ha]
      exact allWs_punctOk fun c hc => hpend c (List.mem_reverse.1 hc)
  | c :: rest, pend, afterP, hpend => by
    by_cases hc : punct3 c
    · rw [punctSubGo, if_pos hc]
      refine chainOk_cons (by decide) ?_ (punctOk_punctSubGo rest [] true (by simp))
      intro d hd
      have := go_true_head_not_space rest [] hd
      simp [sfP, this]
      exact Or.inl (by decide)
    · by_cases hs : pySpace c
      · rw [punctSubGo, if_neg hc, if_pos hs]
        refine punctOk_punctSubGo rest (c :: pend) afterP ?_
        intro x hx
        rcases List.mem_cons.1 hx with rfl | hx2
        · exact hs
        · exact hpend x hx2
      · rw [punctSubGo, if_neg hc, if_neg hs]
        have hcore : punctOk (c :: punctSubGo false [] rest) = true := by
          refine chainOk_cons ?_ ?_ (punctOk_punctSubGo rest [] false (by simp))
          · simp [cfP, hc]
          · intro d _
            simp [sfP, hc]
            exact Or.inl (by simpa using hs)
        by_cases ha : afterP
        · simpa [ha] using hcore
        · simp only [ha, if_neg, Bool.false_eq_true, if_false]
          exact punctOk_wsrun_cons (fun x hx => hpend x (List.mem_reverse.1 hx))
            (by simpa using hc) hcore

theorem punctSubGo_mem :
    ∀ {s pend : List Char} {afterP : Bool} {c : Char},
      c ∈ punctSubGo afterP pend s → c ∈ pend ∨ c ∈ s ∨ c = '，'
  | [], pend, afterP, c, h => by
    rw [punctSubGo] at h
    by_cases ha : afterP
    · simp [ha] at h
    · simp only [ha, if_neg, Bool.false_eq_true, if_false] at h
      exact Or.inl (List.mem_reverse.1 h)
  | d :: rest, pend, afterP, c, h => by
    by_cases hc : punct3 d
    · rw [punctSubGo, if_pos hc] at h
      rcases List.mem_cons.1 h with rfl | h2
      · exact Or.inr (Or.inr rfl)
      · rcases punctSubGo_mem h2 with h3 | h3 | h3
        · simp at h3
        · exact Or.inr (Or.inl (List.mem_cons_of_mem d h3))
        · exact Or.inr (Or.inr h3)
    · by_cases hs : pySpace d
      · rw [punctSubGo, if_neg hc, if_pos hs] at h
        rcases punctSubGo_mem h with h3 | h3 | h3
        · rcases List.mem_cons.1 h3 with rfl | h4
          · exact Or.inr (Or.inl (List.mem_cons_self _ _))
          · exact Or.inl h4
        · exact Or.inr (Or.inl (List.mem_cons_of_mem d h3))
        · exact Or.inr (Or.inr h3)
      · rw [punctSubGo, if_neg hc, if_neg hs] at h
        rcases List.mem_append.1 h with h2 | h2
        · by_cases ha : afterP
          · simp [ha] at h2
          · simp only [ha, if_neg, Bool.false_eq_true, if_false] at h2
            exact Or.inl (List.mem_reverse.1 h2)
        · rcases List.mem_cons.1 h2 with rfl | h3
          · exact Or.inr (Or.inl (List.mem_cons_self _ _))
          · rcases punctSubGo_mem h3 with h4 | h4 | h4
            · simp at h4
            · exact Or.inr (Or.inl (List.mem_cons_of_mem d h4))
            · exact Or.inr (Or.inr h4)

theorem punctSubGo_fix : ∀ (s : List Char), punctOk s = true →
    ((∀ (pend : List Char), (∀ x ∈ pend, pySpace x = true) →
      (∀ h, s.head? = some h → punct3 h = true → pend = []) →
      punctSubGo false pend s = pend.reverse ++ s) ∧
     ((∀ h, s.head? = some h → pySpace h = false) →
      punctSubGo true [] s = s))
  | [], _ => by
    constructor
    · intro pend _ _
      simp [punctSubGo]
    · intro _
      rfl
  | c :: rest, h => by
    have htail := chainOk_tail h
    have ih := punctSubGo_fix rest htail
    by_cases hc : punct3 c
    · have hceq : c = '，' := by
        have := chainOk_head h
        simpa [cfP, hc] using this
      have hresthead : ∀ d, rest.head? = some d → pySpace d = false := by
        intro d hd
        cases rest with
        | nil => simp at hd
        | cons e r2 =>
          simp only [List.head?_cons, Option.some.injEq] at hd
          have hpair := chainOk_pair h
          by_contra hw
          simp only [Bool.not_eq_false] at hw
          rw [hd] at hpair
          simp [sfP, hc, hw] at hpair
      have hrest : punctSubGo true [] rest = rest := ih.2 hresthead
      constructor
      · intro pend hpend hj
        have : pend = [] := hj c rfl hc
        subst this
        rw [punctSubGo, if_pos hc, hrest, hceq]
        rfl
      · intro _
        rw [punctSubGo, if_pos hc, hrest, hceq]
    · by_cases hs : pySpace c
      · constructor
        · intro pend hpend hj
          rw [punctSubGo, if_neg hc, if_pos hs]
          have hj2 : ∀ d, rest.head? = some d → punct3 d = true → c :: pend = [] := by
            intro d hd hdp
            cases rest with
            | nil => simp at hd
            | cons e r2 =>
              simp only [List.head?_cons, Option.some.injEq] at hd
              have hpair := chainOk_pair h
              rw [hd] at hpair
              simp [sfP, hs, hdp] at hpair
          have := ih.1 (c :: pend) (by
            intro x hx
            rcases List.mem_cons.1 hx with rfl | hx2
            · exact hs
            · exact hpend x hx2) hj2
          rw [this]
          simp
        · intro hh
          exact absurd (hh c rfl) (by simpa using hs)
      · have hrest : punctSubGo false [] rest = rest := by
          have := ih.1 [] (by simp) (fun _ _ _ => rfl)
          simpa using this
        constructor
        · intro pend hpend hj
          rw [punctSubGo, if_neg hc, if_neg hs, hrest]
          simp
        · intro _
          rw [punctSubGo, if_neg hc, if_neg hs, hrest]
          simp

theorem punctOk_punctSub (s : List Char) : punctOk (punctSub s) = true :=
  punctOk_punctSubGo s [] false (by simp)

theorem punctSub_eq_self {s : List Char} (h : punctOk s = true) :
    punctSub s = s := by
  have := (punctSubGo_fix s h).1 [] (by simp) (fun _ _ _ => rfl)
  simpa [punctSub] using this

theorem allowedOk_punctSub {s : List Char} (h : allowedOk s = true) :
    allowedOk (punctSub s) = true := by
  rw [allowedOk, List.all_eq_true]
  intro c hc
  rcases punctSubGo_mem hc with h2 | h2 | h2
  · simp at h2
  · exact (List.all_eq_true.1 h) c h2
  · rw [h2]; decide

end RagOptimizer

namespace RagOptimizer

open Py

theorem allowedOk_mapAllowed (s : List Char) :
    allowedOk (s.map (fun c => if allowedChar c then c else ' ')) = true := by
  rw [allowedOk, List.all_eq_true]
  intro c hc
  rcases List.mem_map.1 hc with ⟨a, _, ha⟩
  by_cases h : allowedChar a
  · rw [← ha, if_pos h]; exact h
  · rw [← ha, if_neg h]; decide

theorem mapAllowed_eq_self : ∀ {s : List Char}, allowedOk s = true →
    s.map (fun c => if allowedChar c then c else ' ') = s
  | [], _ => rfl
  | c :: rest, h => by
    have hc : allowedChar c = true := (List.all_eq_true.1 h) c (List.mem_cons_self _ _)
    have htail : allowedOk rest = true := by
      rw [allowedOk, List.all_eq_true]
      exact fun d hd => (List.all_eq_true.1 h) d (List.mem_cons_of_mem c hd)
    simp only [List.map_cons, if_pos hc, mapAllowed_eq_self htail]

theorem rstrip_sublist : ∀ (s : List Char), (rstrip s).Sublist s
  | [] => List.Sublist.refl []
  | c :: rest => by
    rcases rstrip_cons_cases c rest with heq | heq
    · rw [heq]; exact List.nil_sublist _
    · rw [heq]; exact List.Sublist.cons₂ c (rstrip_sublist rest)

theorem strip_sublist (s : List Char) : (strip s).Sublist s :=
  ((List.dropWhile_sublist pySpace).trans (rstrip_sublist s))

theorem allowedOk_strip {s : List Char} (h : allowedOk s = true) :
    allowedOk (strip s) = true := by
  rw [allowedOk, List.all_eq_true]
  exact fun c hc => (List.all_eq_true.1 h) c ((strip_sublist s).subset hc)

theorem chainOk_strip {cf sf} {s : List Char} (h : chainOk cf sf s = true) :
    chainOk cf sf (strip s) = true :=
  chainOk_dropWhile pySpace (chainOk_rstrip h)

theorem clean_text_invariants (s : List Char) :
    wsOk (clean_text s) = true ∧ punctOk (clean_text s) = true ∧
    allowedOk (clean_text s) = true ∧ headNotSpace (clean_text s) = true ∧
    lastNotSpace (clean_text s) = true := by
  rw [clean_text]
  by_cases he : s.isEmpty
  · rw [if_pos he]
    exact ⟨rfl, rfl, rfl, rfl, rfl⟩
  · rw [if_neg he]
    set t1 := wsCollapse (strip s) with ht1
    set t2 := t1.map (fun c => if allowedChar c then c else ' ') with ht2
    set t3 := punctSub t2 with ht3
    set t4 := wsCollapse t3 with ht4
    have h4w : wsOk t4 = true := wsOk_wsCollapse t3
    have h3p : punctOk t3 = true := punctOk_punctSub t2
    have h4p : punctOk t4 = true := punctOk_wsCollapse h3p
    have h2a : allowedOk t2 = true := allowedOk_mapAllowed t1
    have h3a : allowedOk t3 = true := allowedOk_punctSub h2a
    have h4a : allowedOk t4 = true := allowedOk_wsCollapse h3a
    exact ⟨chainOk_strip h4w, chainOk_strip h4p, allowedOk_strip h4a,
      headNotSpace_strip t4, lastNotSpace_strip t4⟩

/-- C3.  The text normalizer RAGOptimizer._clean_text is idempotent, and the
empty string normalizes to the empty string without failing. -/
theorem clean_text_idempotent :
    (∀ s : List Char, clean_text (clean_text s) = clean_text s) ∧
    clean_text [] = [] := by
  constructor
  · intro s
    obtain ⟨hws, hp, ha, hh, hl⟩ := clean_text_invariants s
    generalize hT : clean_text s = t at hws hp ha hh hl ⊢
    rw [clean_text]
    by_cases he : t.isEmpty
    · rw [if_pos he]
      cases t with
      | nil => rfl
      | cons c r => simp at he
    · rw [if_neg he]
      show strip (wsCollapse (punctSub (List.map
        (fun c => if allowedChar c then c else ' ') (wsCollapse (strip t))))) = t
      rw [strip_eq_self hh hl, wsCollapse_eq_self hws, mapAllowed_eq_self ha,
        punctSub_eq_self hp, wsCollapse_eq_self hws, strip_eq_self hh hl]
  · rfl

/-- Witness for C3 at a concrete input: a doubly cleaned mixed string equals
its single cleaning, evaluated by the kernel. -/
theorem clean_text_idempotent_witness :
    clean_text (clean_text ("  大學 ， 。test！！x  ").data) =
      clean_text ("  大學 ， 。test！！x  ").data :=
  clean_text_idempotent.1 _

end RagOptimizer

namespace Py

theorem strip_length_le (s : List Char) : (strip s).length ≤ s.length :=
  (RagOptimizer.strip_sublist s).length_le

theorem litAt_iff {p s : List Char} :
    litAt p s = true ↔ ∃ suf, s = p ++ suf := by
  induction p generalizing s with
  | nil => simp [litAt]
  | cons a ps ih =>
    cases s with
    | nil =>
      simp only [litAt, List.cons_append]
      constructor
      · intro h; cases h
      · rintro ⟨suf, h⟩; cases h
    | cons c cs =>
      simp only [litAt, Bool.and_eq_true, beq_iff_eq, ih, List.cons_append]
      constructor
      · rintro ⟨rfl, suf, rfl⟩
        exact ⟨suf, rfl⟩
      · rintro ⟨suf, heq⟩
        injection heq with h1 h2
        exact ⟨h1.symm, suf, h2⟩

theorem hasSub_iff {p s : List Char} :
    hasSub p s = true ↔ ∃ pre suf, s = pre ++ p ++ suf := by
  induction s with
  | nil =>
    simp only [hasSub, List.isEmpty_iff]
    constructor
    · rintro rfl
      exact ⟨[], [], rfl⟩
    · rintro ⟨pre, suf, h⟩
      rcases List.append_eq_nil.1 h.symm with ⟨h1, h2⟩
      exact (List.append_eq_nil.1 h1).2
  | cons c cs ih =>
    simp only [hasSub, Bool.or_eq_true, litAt_iff, ih]
    constructor
    · rintro (⟨suf, hsuf⟩ | ⟨pre, suf, hps⟩)
      · exact ⟨[], suf, by simpa using hsuf⟩
      · exact ⟨c :: pre, suf, by simp [hps]⟩
    · rintro ⟨pre, suf, heq⟩
      cases pre with
      | nil =>
        exact Or.inl ⟨suf, by simpa using heq⟩
      | cons d pre2 =>
        injection heq with h1 h2
        exact Or.inr ⟨pre2, suf, h2⟩

theorem findSome_first {α β : Type} (p : α → Bool) (g : α → β) :
    ∀ (l : List α) (i : Nat) (hi : i < l.length),
      p (l.get ⟨i, hi⟩) = true →
      (∀ j (hj : j < i), p (l.get ⟨j, Nat.lt_trans hj hi⟩) = false) →
      l.findSome? (fun e => if p e then some (g e) else none) =
        some (g (l.get ⟨i, hi⟩))
  | [], i, hi, _, _ => absurd hi (by simp)
  | a :: rest, 0, hi, hp, _ => by
    simp only [List.get] at hp ⊢
    simp [List.findSome?, hp]
  | a :: rest, i + 1, hi, hp, hprev => by
    have ha : p a = false := by
      have := hprev 0 (Nat.succ_pos i)
      simpa using this
    simp only [List.findSome?, ha, Bool.false_eq_true, if_false]
    exact findSome_first p g rest i (by simpa using hi) (by simpa using hp)
      (fun j hj => by
        have := hprev (j + 1) (by omega)
        simpa using this)

theorem findSome_none {α β : Type} (p : α → Bool) (g : α → β) :
    ∀ (l : List α), (∀ e ∈ l, p e = false) →
      l.findSome? (fun e => if p e then some (g e) else none) = none
  | [], _ => rfl
  | a :: rest, h => by
    have ha := h a (List.mem_cons_self _ _)
    simp only [List.findSome?, ha, Bool.false_eq_true, if_false]
    exact findSome_none p g rest fun e he => h e (List.mem_cons_of_mem a he)

theorem ltChars_asymm : ∀ {a b : List Char},
    ltChars a b = true → ltChars b a = true → False
  | [], [], h, _ => by simp [ltChars] at h
  | [], _ :: _, _, h2 => by simp [ltChars] at h2
  | _ :: _, [], h, _ => by simp [ltChars] at h
  | a :: as, b :: bs, h1, h2 => by
    simp only [ltChars, Bool.or_eq_true, Bool.and_eq_true, beq_iff_eq,
      decide_eq_true_eq] at h1 h2
    rcases h1 with h1 | ⟨rfl, h1⟩
    · rcases h2 with h2 | ⟨rfl, _⟩
      · exact absurd h1 (lt_asymm h2)
      · exact absurd h1 (lt_irrefl _)
    · rcases h2 with h2 | ⟨_, h2⟩
      · exact absurd h2 (lt_irrefl _)
      · exact ltChars_asymm h1 h2

theorem ltChars_trans : ∀ {a b c : List Char},
    ltChars a b = true → ltChars b c = true → ltChars a c = true
  | [], [], _, h, _ => by simp [ltChars] at h
  | [], _ :: _, [], _, h2 => by simp [ltChars] at h2
  | [], _ :: _, _ :: _, _, _ => by simp [ltChars]
  | _ :: _, [], _, h, _ => by simp [ltChars] at h
  | _ :: _, _ :: _, [], _, h2 => by simp [ltChars] at h2
  | a :: as, b :: bs, c :: cs, h1, h2 => by
    simp only [ltChars, Bool.or_eq_true, Bool.and_eq_true, beq_iff_eq,
      decide_eq_true_eq] at h1 h2 ⊢
    rcases h1 with h1 | ⟨rfl, h1⟩
    · rcases h2 with h2 | ⟨rfl, h2⟩
      · exact Or.inl (lt_trans h1 h2)
      · exact Or.inl h1
    · rcases h2 with h2 | ⟨rfl, h2⟩
      · exact Or.inl h2
      · exact Or.inr ⟨rfl, ltChars_trans h1 h2⟩

theorem ltChars_total : ∀ (a b : List Char),
    a = b ∨ ltChars a b = true ∨ ltChars b a = true
  | [], [] => Or.inl rfl
  | [], _ :: _ => Or.inr (Or.inl (by simp [ltChars]))
  | _ :: _, [] => Or.inr (Or.inr (by simp [ltChars]))
  | a :: as, b :: bs => by
    rcases lt_trichotomy a b with hab | rfl | hab
    · exact Or.inr (Or.inl (by simp [ltChars, hab]))
    · rcases ltChars_total as bs with h | h | h
      · exact Or.inl (by rw [h])
      · exact Or.inr (Or.inl (by simp [ltChars, h]))
      · exact Or.inr (Or.inr (by simp [ltChars, h]))
    · exact Or.inr (Or.inr (by simp [ltChars, hab]))

theorem leChars_trans : ∀ (a b c : List Char),
    leChars a b = true → leChars b c = true → leChars a c = true := by
  intro a b c h1 h2
  simp only [leChars, Bool.or_eq_true, beq_iff_eq] at h1 h2 ⊢
  rcases h1 with rfl | h1
  · exact h2
  · rcases h2 with rfl | h2
    · exact Or.inr h1
    · exact Or.inr (ltChars_trans h1 h2)

theorem leChars_total : ∀ (a b : List Char),
    (leChars a b || leChars b a) = true := by
  intro a b
  simp only [leChars, Bool.or_eq_true, beq_iff_eq]
  rcases ltChars_total a b with h | h | h
  · exact Or.inl (Or.inl h)
  · exact Or.inl (Or.inr h)
  · exact Or.inr (Or.inr h)

theorem leChars_antisymm {a b : List Char}
    (h1 : leChars a b = true) (h2 : leChars b a = true) : a = b := by
  simp only [leChars, Bool.or_eq_true, beq_iff_eq] at h1 h2
  rcases h1 with rfl | h1
  · rfl
  · rcases h2 with rfl | h2
    · rfl
    · exact (ltChars_asymm h1 h2).elim

/-- Two enumerations of the same finite set of strings sort to the same
list: the sorted output is a function of the underlying set alone. -/
theorem pySorted_perm_eq {l₁ l₂ : List (List Char)} (h : l₁.Perm l₂) :
    pySorted l₁ = pySorted l₂ := by
  haveI : IsTotal (List Char) (fun a b => leChars a b = true) :=
    ⟨fun a b => by
      have h2 := leChars_total a b
      rw [Bool.or_eq_true] at h2
      exact h2⟩
  haveI : IsTrans (List Char) (fun a b => leChars a b = true) :=
    ⟨fun a b c => leChars_trans a b c⟩
  haveI : IsAntisymm (List Char) (fun a b => leChars a b = true) :=
    ⟨fun _ _ => leChars_antisymm⟩
  have hs₁ := List.sorted_insertionSort (fun a b => leChars a b = true) l₁
  have hs₂ := List.sorted_insertionSort (fun a b => leChars a b = true) l₂
  have hperm : (pySorted l₁).Perm (pySorted l₂) :=
    ((List.perm_insertionSort _ l₁).trans h).trans
      (List.perm_insertionSort _ l₂).symm
  exact List.eq_of_perm_of_sorted hperm hs₁ hs₂

end Py

open Py

/-- C1.  The QA synthesizer does not begin with the two title-level pairs:
at title T, full text abc and an empty chunk sequence the source returns the
empty list, although its dead local qa_patterns holds exactly the two pairs
the specification describes.  The claim describes the dead list, not the
returned value. -/
theorem c1_qa_pairs_title_pairs_never_emitted :
    RagOptimizer.generate_qa_pairs "T".data "abc".data [] = [] ∧
    (RagOptimizer.qa_patterns "T".data "abc".data []).length = 2 :=
  ⟨rfl, rfl⟩

/-- C2 counterexample.  A text of 21 distinct two-letter acronyms makes the
keyword extraction return 21 entries: the 20-entry bound only caps the
frequency channel, not the pattern channel. -/
theorem c2_counterexample_21_keywords :
    (RagOptimizer.extract_keywords
      "AB CD EF GH IJ KL MN OP QR ST UV WX YZ BA DC FE HG JI LK NM PO".data).length
      = 21 := by decide

/-- C2 amended.  The frequency channel of the keyword extractor contributes
at most 20 entries for every text; no bound holds for the union with the
pattern channel. -/
theorem c2_freq_channel_at_most_20 (text : List Char) :
    (RagOptimizer.top_freq_keywords text).length ≤ 20 := by
  unfold RagOptimizer.top_freq_keywords
  refine le_trans (List.length_filterMap_le _ _) ?_
  exact le_trans (List.length_take_le _ _) (le_refl 20)

/-- C5 counterexample.  With name X, no country and the subject A listed
twice, the generated variations contain the string X A twice: nothing
deduplicates the sequence. -/
theorem c5_counterexample_duplicate_variations :
    SchoolRAG.generate_search_variations
      { name := "X".data, country := [], popular_subjects := ["A".data, "A".data] }
      = ["X".data, "X A".data, "X A".data] ∧
    ¬ (["X".data, "X A".data, "X A".data] : List (List Char)).Nodup := by
  constructor
  · rfl
  · decide

/-- C5 amended.  The search-variation sequence is capped at 10 elements for
every school record; it keeps insertion order but may contain duplicates. -/
theorem c5_variations_capped (school : SchoolRAG.School) :
    (SchoolRAG.generate_search_variations school).length ≤ 10 := by
  unfold SchoolRAG.generate_search_variations
  exact List.length_take_le _ _

/-- C6 counterexample.  A record with an empty title is excluded from the
output, but the log list of the batch is empty: the source only logs when
optimization raises, and the empty-title exclusion returns None without
raising. -/
theorem c6_counterexample_silent_skip :
    RagOptimizer.optimize_articles_for_rag
      [{ title := [], content := "abcdef".data, excerpt := [],
         source_url := [], categories := [], headings := [] }] = ([], []) :=
  rfl

/-- C6 amended.  A record whose cleaned title or cleaned body is empty is
excluded without aborting the batch and without raising: the batch loop
continues past it and the remaining records are processed; but the exclusion
is silent — the error log of the batch is always empty because the except
branch never fires in the exception-free core. -/
theorem c6_empty_fields_excluded_silently :
    (∀ articles, (RagOptimizer.optimize_articles_for_rag articles).2 = []) ∧
    (∀ (a : RagOptimizer.Article) (i : Nat),
      RagOptimizer.clean_text a.title = [] ∨
        RagOptimizer.clean_text a.content = [] →
      RagOptimizer.optimize_single_article a i = none) ∧
    (∀ (i : Nat) (a : RagOptimizer.Article) (rest : List RagOptimizer.Article),
      RagOptimizer.optimize_single_article a (i + 1) = none →
      RagOptimizer.optimize_articles_go i (a :: rest) =
        RagOptimizer.optimize_articles_go (i + 1) rest) := by
  refine ⟨fun _ => rfl, ?_, ?_⟩
  · intro a i h
    unfold RagOptimizer.optimize_single_article
    rcases h with h | h
    · rw [h]
      simp
    · rw [h]
      simp
  · intro i a rest h
    rw [RagOptimizer.optimize_articles_go, h]

/-- Witness for C6: the amended theorem applied to a concrete one-record
batch with an empty title. -/
theorem c6_empty_fields_excluded_silently_witness :
    RagOptimizer.optimize_single_article
      { title := [], content := "abcdef".data, excerpt := [],
        source_url := [], categories := [], headings := [] } 1 = none ∧
    RagOptimizer.optimize_articles_go 0
      [{ title := [], content := "abcdef".data, excerpt := [],
         source_url := [], categories := [], headings := [] }] =
      RagOptimizer.optimize_articles_go 1 [] :=
  ⟨c6_empty_fields_excluded_silently.2.1 _ 1 (Or.inl rfl),
   c6_empty_fields_excluded_silently.2.2 0 _ []
     (c6_empty_fields_excluded_silently.2.1 _ 1 (Or.inl rfl))⟩

/-- C7 counterexample.  The school keyword extractor truncates an
unordered set materialization: for the text abcd efgh both enumeration
orders of the two-element keyword set are permutations of the deduplicated
bag, yet they yield different keyword lists, so two runs of the school
pipeline need not produce byte-identical keyword lists. -/
theorem c7_counterexample_school_keyword_order :
    (["abcd".data, "efgh".data] : List (List Char)).Perm
      ((SchoolRAG.keyword_bag "abcd efgh".data).dedup) ∧
    (["efgh".data, "abcd".data] : List (List Char)).Perm
      ((SchoolRAG.keyword_bag "abcd efgh".data).dedup) ∧
    SchoolRAG.unique_keywords ["abcd".data, "efgh".data] ≠
      SchoolRAG.unique_keywords ["efgh".data, "abcd".data] := by
  refine ⟨by decide, by decide, by decide⟩

/-- C7 amended.  The article keyword list is deterministic: whatever
enumeration order the keywords set takes, sorting it yields the published
keyword list, so two assemblies of one record agree on keywords there. -/
theorem c7_article_keywords_set_order_independent (text : List Char)
    (m : List (List Char))
    (hm : m.Perm ((RagOptimizer.keyword_inserts text).dedup)) :
    pySorted m = RagOptimizer.extract_keywords text :=
  pySorted_perm_eq hm

/-- Witness for C7: on the text AB BA, the reversed enumeration of the
keyword set sorts to the published keyword list. -/
theorem c7_article_keywords_witness :
    pySorted ["BA".data, "AB".data] =
      RagOptimizer.extract_keywords "AB BA".data :=
  c7_article_keywords_set_order_independent "AB BA".data
    ["BA".data, "AB".data] (by decide)

/-- C8.  Country extraction scans the fixed table in order and returns the
code of the first entry with a case-insensitive indicator hit, the empty
code when nothing matches, and UK on the Oxford Street address. -/
theorem c8_country_first_match :
    (∀ (addr : List Char), addr ≠ [] →
      ∀ (i : Nat) (hi : i < SchoolRAG.countries.length),
        SchoolRAG.entry_matches (SchoolRAG.countries.get ⟨i, hi⟩).2
          (upperL addr) = true →
        (∀ (j : Nat) (hj : j < i),
          SchoolRAG.entry_matches
            (SchoolRAG.countries.get ⟨j, Nat.lt_trans hj hi⟩).2
            (upperL addr) = false) →
        SchoolRAG.extract_country_from_address addr =
          (SchoolRAG.countries.get ⟨i, hi⟩).1) ∧
    (∀ addr : List Char,
      (∀ e ∈ SchoolRAG.countries,
        SchoolRAG.entry_matches e.2 (upperL addr) = false) →
      SchoolRAG.extract_country_from_address addr = []) ∧
    SchoolRAG.extract_country_from_address
      "123 Oxford Street, London, England, UK".data = "UK".data := by
  refine ⟨?_, ?_, by decide⟩
  · intro addr haddr i hi hp hprev
    have hne : addr.isEmpty = false := by
      cases addr with
      | nil => exact absurd rfl haddr
      | cons c cs => rfl
    rw [SchoolRAG.extract_country_from_address, hne]
    have := findSome_first
      (fun e => SchoolRAG.entry_matches e.2 (upperL addr)) (fun e => e.1)
      SchoolRAG.countries i hi hp hprev
    simp only [Bool.false_eq_true, if_false]
    rw [this]
  · intro addr hall
    by_cases hne : addr.isEmpty
    · rw [SchoolRAG.extract_country_from_address, hne]
      simp
    · rw [Bool.not_eq_true] at hne
      rw [SchoolRAG.extract_country_from_address, hne]
      have := findSome_none
        (fun e => SchoolRAG.entry_matches e.2 (upperL addr)) (fun e => e.1)
        SchoolRAG.countries hall
      simp only [Bool.false_eq_true, if_false]
      rw [this]

/-- Witness for C8: the first conjunct applied to the Oxford Street address
at table index 0. -/
theorem c8_country_first_match_witness :
    SchoolRAG.extract_country_from_address
      "123 Oxford Street, London, England, UK".data =
      (SchoolRAG.countries.get ⟨0, by decide⟩).1 :=
  c8_country_first_match.1 "123 Oxford Street, London, England, UK".data
    (by decide) 0 (by decide) (by decide)
    (fun j hj => absurd hj (Nat.not_lt_zero j))

/-- C10.  Indicator matching is plain substring containment on the
upper-cased address, so an address containing Australia in any letter case
and matching no UK indicator is classified as US: the two-letter indicator
US occurs inside AUSTRALIA and the US table entry precedes the AU entry. -/
theorem c10_australia_classified_as_us :
    ∀ addr : List Char, addr ≠ [] →
      hasSub "AUSTRALIA".data (upperL addr) = true →
      SchoolRAG.entry_matches ["UK".data, "United Kingdom".data,
        "England".data, "Scotland".data, "Wales".data,
        "Northern Ireland".data] (upperL addr) = false →
      SchoolRAG.extract_country_from_address addr = "US".data := by
  intro addr haddr hau huk
  have hus : hasSub "US".data (upperL addr) = true := by
    rcases hasSub_iff.1 hau with ⟨pre, suf, heq⟩
    refine hasSub_iff.2 ⟨pre ++ ['A'], "TRALIA".data ++ suf, ?_⟩
    rw [heq]
    simp
  have hne : addr.isEmpty = false := by
    cases addr with
    | nil => exact absurd rfl haddr
    | cons c cs => rfl
  rw [SchoolRAG.extract_country_from_address, hne]
  simp only [Bool.false_eq_true, if_false]
  have husentry : SchoolRAG.entry_matches
      ["US".data, "USA".data, "United States".data, "America".data]
      (upperL addr) = true := by
    simp only [SchoolRAG.entry_matches, List.any_eq_true]
    exact ⟨"US".data, by simp, hus⟩
  have := findSome_first
    (fun e => SchoolRAG.entry_matches e.2 (upperL addr)) (fun e => e.1)
    SchoolRAG.countries 1 (by decide) husentry
    (fun j hj => by
      interval_cases j
      exact huk)
  rw [this]
  exact rfl

/-- Witness for C10 at the address Sydney, Australia. -/
theorem c10_australia_classified_as_us_witness :
    SchoolRAG.extract_country_from_address "Sydney, Australia".data =
      "US".data :=
  c10_australia_classified_as_us "Sydney, Australia".data (by decide)
    (by decide) (by decide)

/-- C9.  Every chunk emitted by the heading-delimited chunker has content of
length at least 30, its context label is the title joined with its heading
(or the bare title when the heading is empty), and it stems from a section
whose body is at least 50 long, whose heading it carries and among whose
stripped paragraphs its content appears. -/
theorem c9_semantic_chunk_shape :
    ∀ (content title : List Char) (ch : RagOptimizer.Chunk),
      ch ∈ RagOptimizer.create_semantic_chunks content title →
      30 ≤ ch.content.length ∧
      ch.context = (if ch.heading.isEmpty then title
        else title ++ " - ".data ++ ch.heading) ∧
      ∃ sec ∈ splitSections content,
        50 ≤ (RagOptimizer.section_content sec).length ∧
        ch.heading = RagOptimizer.section_heading sec ∧
        ch.content ∈ RagOptimizer.section_paragraphs
          (RagOptimizer.section_content sec) := by
  intro content title ch hmem
  unfold RagOptimizer.create_semantic_chunks at hmem
  rcases List.mem_bind.1 hmem with ⟨is, his, hch⟩
  have hsec : is.2 ∈ splitSections content := List.snd_mem_of_mem_enum his
  unfold RagOptimizer.section_chunks at hch
  by_cases h1 : (strip is.2).isEmpty
  · rw [if_pos h1] at hch
    simp at hch
  · rw [if_neg h1] at hch
    by_cases h2 : (RagOptimizer.section_content is.2).length < 50
    · rw [if_pos h2] at hch
      simp at hch
    · rw [if_neg h2] at hch
      rcases List.mem_filterMap.1 hch with ⟨pj, hpj, heq⟩
      by_cases h3 : pj.2.length < 30
      · rw [if_pos h3] at heq
        cases heq
      · rw [if_neg h3] at heq
        have hpar : pj.2 ∈ RagOptimizer.section_paragraphs
            (RagOptimizer.section_content is.2) :=
          List.snd_mem_of_mem_enum hpj
        injection heq with heq
        subst heq
        refine ⟨?_, rfl, is.2, hsec, by omega, rfl, hpar⟩
        show 30 ≤ pj.2.length
        omega

/-- Witness for C9: the single chunk of a one-section document satisfies the
shape properties. -/
theorem c9_semantic_chunk_shape_witness :
    30 ≤ (List.replicate 60 'a').length ∧
    "T - Fees Heading".data =
      (if ("Fees Heading".data : List Char).isEmpty then "T".data
       else "T".data ++ " - ".data ++ "Fees Heading".data) ∧
    ∃ sec ∈ splitSections ("intro\n## Fees Heading\n\n".data ++
        List.replicate 60 'a'),
      50 ≤ (RagOptimizer.section_content sec).length ∧
      "Fees Heading".data = RagOptimizer.section_heading sec ∧
      List.replicate 60 'a' ∈ RagOptimizer.section_paragraphs
        (RagOptimizer.section_content sec) :=
  c9_semantic_chunk_shape
    ("intro\n## Fees Heading\n\n".data ++ List.replicate 60 'a') "T".data
    { id := "chunk_1".data, heading := "Fees Heading".data,
      content := List.replicate 60 'a', context := "T - Fees Heading".data,
      length := 60 }
    (by decide)

theorem packStep_eq (en : List Char) (chunks : List SubjectsScraper.ContentChunk)
    (cc : List Char) (k : Nat) (a : List Char) :
    SubjectsScraper.packStep en (chunks, cc, k) a =
      if 1000 < cc.length + a.length ∧ cc ≠ [] then
        (chunks ++ [SubjectsScraper.mkContentChunk en (k + 1) cc], a, k + 1)
      else (chunks, (if cc.isEmpty then a else cc ++ ' ' :: a), k) := by
  by_cases h1 : 1000 < cc.length + a.length
  · by_cases h2 : cc.isEmpty
    · have hnil : cc = [] := List.isEmpty_iff.1 h2
      subst hnil
      simp [SubjectsScraper.packStep, h1]
    · have hne : cc ≠ [] := fun h => h2 (by simp [h])
      simp [SubjectsScraper.packStep, h1, h2, hne]
  · by_cases h2 : cc.isEmpty
    · simp [SubjectsScraper.packStep, h1, h2]
    · simp [SubjectsScraper.packStep, h1, h2]

theorem pack_fold_invariant (en : List Char) :
    ∀ (ss : List (List Char)) (chunks : List SubjectsScraper.ContentChunk)
      (cc : List Char) (k : Nat),
      (∀ ch ∈ (ss.foldl (SubjectsScraper.packStep en) (chunks, cc, k)).1,
        ch ∈ chunks ∨ ch.content.length ≤ 1001 ∨ ch.content = strip cc ∨
          ∃ s ∈ ss, ch.content = strip s) ∧
      ((ss.foldl (SubjectsScraper.packStep en) (chunks, cc, k)).2.1 = cc ∨
        (ss.foldl (SubjectsScraper.packStep en) (chunks, cc, k)).2.1.length ≤ 1001 ∨
        ∃ s ∈ ss, (ss.foldl (SubjectsScraper.packStep en) (chunks, cc, k)).2.1 = s)
  | [], chunks, cc, k => by
    exact ⟨fun ch hch => Or.inl hch, Or.inl rfl⟩
  | a :: ss, chunks, cc, k => by
    rw [List.foldl_cons, packStep_eq]
    by_cases hcond : 1000 < cc.length + a.length ∧ cc ≠ []
    · rw [if_pos hcond]
      obtain ⟨ihA, ihB⟩ := pack_fold_invariant en ss
        (chunks ++ [SubjectsScraper.mkContentChunk en (k + 1) cc]) a (k + 1)
      constructor
      · intro ch hch
        rcases ihA ch hch with hm | hlen | hstr | ⟨s, hs, hstr⟩
        · rcases List.mem_append.1 hm with hm2 | hm2
          · exact Or.inl hm2
          · have : ch = SubjectsScraper.mkContentChunk en (k + 1) cc := by
              simpa using hm2
            rw [this]
            exact Or.inr (Or.inr (Or.inl rfl))
        · exact Or.inr (Or.inl hlen)
        · exact Or.inr (Or.inr (Or.inr ⟨a, List.mem_cons_self _ _, hstr⟩))
        · exact Or.inr (Or.inr (Or.inr ⟨s, List.mem_cons_of_mem a hs, hstr⟩))
      · rcases ihB with hb | hb | ⟨s, hs, hb⟩
        · exact Or.inr (Or.inr ⟨a, List.mem_cons_self _ _, hb⟩)
        · exact Or.inr (Or.inl hb)
        · exact Or.inr (Or.inr ⟨s, List.mem_cons_of_mem a hs, hb⟩)
    · rw [if_neg hcond]
      by_cases hemp : cc.isEmpty
      · rw [if_pos hemp]
        obtain ⟨ihA, ihB⟩ := pack_fold_invariant en ss chunks a k
        constructor
        · intro ch hch
          rcases ihA ch hch with hm | hlen | hstr | ⟨s, hs, hstr⟩
          · exact Or.inl hm
          · exact Or.inr (Or.inl hlen)
          · exact Or.inr (Or.inr (Or.inr ⟨a, List.mem_cons_self _ _, hstr⟩))
          · exact Or.inr (Or.inr (Or.inr ⟨s, List.mem_cons_of_mem a hs, hstr⟩))
        · rcases ihB with hb | hb | ⟨s, hs, hb⟩
          · exact Or.inr (Or.inr ⟨a, List.mem_cons_self _ _, hb⟩)
          · exact Or.inr (Or.inl hb)
          · exact Or.inr (Or.inr ⟨s, List.mem_cons_of_mem a hs, hb⟩)
      · rw [if_neg hemp]
        have hne : cc ≠ [] := by
          intro h
          exact hemp (by simp [h])
        have hle : cc.length + a.length ≤ 1000 := by
          by_contra hgt
          exact hcond ⟨by omega, hne⟩
        have hlen2 : (cc ++ ' ' :: a).length ≤ 1001 := by
          simp only [List.length_append, List.length_cons]
          omega
        obtain ⟨ihA, ihB⟩ := pack_fold_invariant en ss chunks (cc ++ ' ' :: a) k
        constructor
        · intro ch hch
          rcases ihA ch hch with hm | hlen | hstr | ⟨s, hs, hstr⟩
          · exact Or.inl hm
          · exact Or.inr (Or.inl hlen)
          · refine Or.inr (Or.inl ?_)
            rw [hstr]
            exact le_trans (strip_length_le _) hlen2
          · exact Or.inr (Or.inr (Or.inr ⟨s, List.mem_cons_of_mem a hs, hstr⟩))
        · rcases ihB with hb | hb | ⟨s, hs, hb⟩
          · refine Or.inr (Or.inl ?_)
            rw [hb]
            exact hlen2
          · exact Or.inr (Or.inl hb)
          · exact Or.inr (Or.inr ⟨s, List.mem_cons_of_mem a hs, hb⟩)

/-- C4 amended.  Every chunk emitted by the sentence packer is at most 1001
characters long — the length check omits the joining space, so a packed
chunk can reach 1001, one more than the claimed 1000 — unless the chunk is
a single (stripped) sentence, which can be arbitrarily long; and the final
non-empty buffer is always emitted as the last chunk. -/
theorem c4_chunk_bound_and_final_emit (en : List Char)
    (sentences : List (List Char)) :
    (∀ ch ∈ SubjectsScraper.content_chunks en sentences,
      ch.content.length ≤ 1001 ∨ ∃ s ∈ sentences, ch.content = strip s) ∧
    ((sentences.foldl (SubjectsScraper.packStep en) ([], [], 0)).2.1 ≠ [] →
      (SubjectsScraper.content_chunks en sentences).getLast? =
        some (SubjectsScraper.mkContentChunk en
          ((sentences.foldl (SubjectsScraper.packStep en) ([], [], 0)).2.2 + 1)
          ((sentences.foldl (SubjectsScraper.packStep en) ([], [], 0)).2.1))) := by
  obtain ⟨ihA, ihB⟩ := pack_fold_invariant en sentences [] [] 0
  constructor
  · intro ch hch
    unfold SubjectsScraper.content_chunks at hch
    by_cases hb : (sentences.foldl (SubjectsScraper.packStep en) ([], [], 0)).2.1.isEmpty
    · rw [if_pos hb] at hch
      rcases ihA ch hch with hm | hlen | hstr | ⟨s, hs, hstr⟩
      · simp at hm
      · exact Or.inl hlen
      · exact Or.inl (by rw [hstr]; decide)
      · exact Or.inr ⟨s, hs, hstr⟩
    · rw [if_neg hb] at hch
      rcases List.mem_append.1 hch with hm | hm
      · rcases ihA ch hm with hm2 | hlen | hstr | ⟨s, hs, hstr⟩
        · simp at hm2
        · exact Or.inl hlen
        · exact Or.inl (by rw [hstr]; decide)
        · exact Or.inr ⟨s, hs, hstr⟩
      · have hch2 : ch = SubjectsScraper.mkContentChunk en
            ((sentences.foldl (SubjectsScraper.packStep en) ([], [], 0)).2.2 + 1)
            ((sentences.foldl (SubjectsScraper.packStep en) ([], [], 0)).2.1) := by
          simpa using hm
        rcases ihB with hb2 | hb2 | ⟨s, hs, hb2⟩
        · rw [hb2] at hb
          simp at hb
        · refine Or.inl ?_
          rw [hch2]
          exact le_trans (strip_length_le _) hb2
        · refine Or.inr ⟨s, hs, ?_⟩
          rw [hch2, hb2]
          exact rfl
  · intro hne
    unfold SubjectsScraper.content_chunks
    rw [if_neg (by simpa [List.isEmpty_iff] using hne)]
    exact List.getLast?_concat _

/-- Witness for C4: on a single short sentence the one emitted chunk obeys
the bound and is the emitted final buffer. -/
theorem c4_chunk_bound_witness :
    ((SubjectsScraper.mkContentChunk "X".data 1 "ab.".data).content.length ≤ 1001 ∨
      ∃ s ∈ ["ab.".data], (SubjectsScraper.mkContentChunk "X".data 1
        "ab.".data).content = strip s) ∧
    (SubjectsScraper.content_chunks "X".data ["ab.".data]).getLast? =
      some (SubjectsScraper.mkContentChunk "X".data
        (([["ab.".data]].flatten.foldl (SubjectsScraper.packStep "X".data)
          ([], [], 0)).2.2 + 1)
        (([["ab.".data]].flatten.foldl (SubjectsScraper.packStep "X".data)
          ([], [], 0)).2.1) ) := by
  have h := c4_chunk_bound_and_final_emit "X".data ["ab.".data]
  refine ⟨h.1 _ (by decide), ?_⟩
  have h2 := h.2 (by decide)
  simpa using h2

theorem mkContentChunk_content (en : List Char) (k : Nat) (cc : List Char) :
    (SubjectsScraper.mkContentChunk en k cc).content = strip cc := rfl

theorem lastNotSpace_append_single :
    ∀ (xs : List Char) (c : Char), lastNotSpace (xs ++ [c]) = !pySpace c
  | [], _ => rfl
  | [_], _ => rfl
  | x :: y :: xs, c => by
    have ih := lastNotSpace_append_single (y :: xs) c
    simpa [lastNotSpace] using ih

theorem headNotSpace_replicate_append (n : Nat) (c : Char) (t : List Char)
    (hc : pySpace c = false) :
    headNotSpace (List.replicate (n + 1) c ++ t) = true := by
  rw [List.replicate_succ]
  simp [headNotSpace, hc]

/-- C4 counterexample.  Two sentences of 500 characters pack into one chunk
of 1001 characters: the joining space is not counted by the overflow check,
the chunk exceeds 1000, and it is not a single sentence (each stripped
sentence has length 500). -/
theorem c4_counterexample_chunk_of_1001 :
    (SubjectsScraper.content_chunks "X".data
        [List.replicate 499 'a' ++ ['.'], List.replicate 499 'b' ++ ['.']]).map
        (fun c => c.content) =
      [(List.replicate 499 'a' ++ ['.']) ++
        ' ' :: (List.replicate 499 'b' ++ ['.'])] ∧
    ((List.replicate 499 'a' ++ ['.']) ++
      ' ' :: (List.replicate 499 'b' ++ ['.'])).length = 1001 ∧
    (strip (List.replicate 499 'a' ++ ['.'])).length = 500 ∧
    (strip (List.replicate 499 'b' ++ ['.'])).length = 500 := by
  have hlen1 : (List.replicate 499 'a' ++ ['.'] : List Char).length = 500 := by
    simp
  have hlen2 : (List.replicate 499 'b' ++ ['.'] : List Char).length = 500 := by
    simp
  have hstrip1 : strip (List.replicate 499 'a' ++ ['.']) =
      List.replicate 499 'a' ++ ['.'] := by
    refine strip_eq_self ?_ ?_
    · have : (499 : Nat) = 498 + 1 := rfl
      rw [this]
      exact headNotSpace_replicate_append 498 'a' _ (by decide)
    · rw [lastNotSpace_append_single]
      decide
  have hstrip2 : strip (List.replicate 499 'b' ++ ['.']) =
      List.replicate 499 'b' ++ ['.'] := by
    refine strip_eq_self ?_ ?_
    · have : (499 : Nat) = 498 + 1 := rfl
      rw [this]
      exact headNotSpace_replicate_append 498 'b' _ (by decide)
    · rw [lastNotSpace_append_single]
      decide
  have hjoin : (List.replicate 499 'a' ++ ['.']) ++
      ' ' :: (List.replicate 499 'b' ++ ['.']) =
      ((List.replicate 499 'a' ++ ['.']) ++ ' ' :: List.replicate 499 'b')
        ++ ['.'] := by
    simp
  have hstripjoin : strip ((List.replicate 499 'a' ++ ['.']) ++
      ' ' :: (List.replicate 499 'b' ++ ['.'])) =
      (List.replicate 499 'a' ++ ['.']) ++
        ' ' :: (List.replicate 499 'b' ++ ['.']) := by
    rw [hjoin]
    refine strip_eq_self ?_ ?_
    · rw [List.append_assoc]
      have : (499 : Nat) = 498 + 1 := rfl
      rw [this]
      exact headNotSpace_replicate_append 498 'a' _ (by decide)
    · rw [lastNotSpace_append_single]
      decide
  have hempty1 : (List.replicate 499 'a' ++ ['.'] : List Char).isEmpty = false := by
    simp
  have hstep1 : SubjectsScraper.packStep "X".data ([], [], 0)
      (List.replicate 499 'a' ++ ['.']) =
      ([], List.replicate 499 'a' ++ ['.'], 0) := by
    rw [packStep_eq, if_neg (by intro h; exact h.2 rfl)]
    simp
  have hstep2 : SubjectsScraper.packStep "X".data
      ([], List.replicate 499 'a' ++ ['.'], 0)
      (List.replicate 499 'b' ++ ['.']) =
      ([], (List.replicate 499 'a' ++ ['.']) ++
        ' ' :: (List.replicate 499 'b' ++ ['.']), 0) := by
    rw [packStep_eq, if_neg (by
      intro h
      have h1 := h.1
      rw [hlen1, hlen2] at h1
      omega)]
    simp [hempty1]
  have hfold : [List.replicate 499 'a' ++ ['.'],
      List.replicate 499 'b' ++ ['.']].foldl
        (SubjectsScraper.packStep "X".data) ([], [], 0) =
      ([], (List.replicate 499 'a' ++ ['.']) ++
        ' ' :: (List.replicate 499 'b' ++ ['.']), 0) := by
    rw [List.foldl_cons, hstep1, List.foldl_cons, hstep2, List.foldl_nil]
  refine ⟨?_, by simp, by rw [hstrip1, hlen1], by rw [hstrip2, hlen2]⟩
  unfold SubjectsScraper.content_chunks
  rw [hfold]
  rw [if_neg (by
    intro h
    have h2 := List.isEmpty_iff.1 h
    have := congrArg List.length h2
    simp at this)]
  simp only [List.nil_append, List.map_cons, List.map_nil]
  rw [mkContentChunk_content, hstripjoin]
